import Mathlib

/-!
# Verification of the cookie-persisted todo list (src/src/App.tsx)

A shallow embedding of the React/TypeScript todo application:

* the `Todo` record and the state-transition operations of the component
  (`handleAddTodo`, `handleToggleTodo`, `handleDeleteTodo`, `handleEditSubmit`,
  `handleClearCompleted`, `filteredTodos`);
* the persistence codec (`setCookie` / `getCookie` /
  `loadTodosFromCookie` / `saveTodosToCookie`), including a model of
  `JSON.parse` / `JSON.stringify`, `encodeURIComponent` /
  `decodeURIComponent` (with UTF-8 percent encoding) and the browser's
  `document.cookie` string interface.

JavaScript strings are modelled by Lean `String` (sequences of Unicode scalar
values; surrogate-pair edge cases of UTF-16 are outside the model).  JSON
numbers are kept losslessly as their source lexeme, which is all the
application ever observes of them.  Exceptions are modelled with `Option` /
`Except`: `none` / `.error` marks a thrown JavaScript exception.
-/

/-- The set of characters removed by JavaScript `String.prototype.trim`
(WhiteSpace ∪ LineTerminator of the ECMAScript standard). -/
def isJsWhitespace (c : Char) : Bool :=
  let n := c.toNat
  n == 9 || n == 10 || n == 11 || n == 12 || n == 13 || n == 32 ||
  n == 0xa0 || n == 0x1680 || (0x2000 ≤ n && n ≤ 0x200a) ||
  n == 0x2028 || n == 0x2029 || n == 0x202f || n == 0x205f ||
  n == 0x3000 || n == 0xfeff

/-- JavaScript `s.trim()`: strip leading and trailing whitespace. -/
def jsTrim (s : String) : String :=
  ⟨((s.data.dropWhile isJsWhitespace).reverse.dropWhile isJsWhitespace).reverse⟩

/-- The `Todo` record type of App.tsx. -/
structure Todo where
  id : String
  title : String
  completed : Bool
  createdAt : String
deriving DecidableEq, Repr

/-- `handleAddTodo` (App.tsx lines 66–80): trim the pending title; if the
trimmed title is empty do nothing, otherwise prepend a new todo with the
trimmed title, `completed = false`, the freshly generated id and the current
time.  The generated `crypto.randomUUID()` value and `new Date().toISOString()`
value enter as parameters `freshId` and `now`. -/
def addTodo (freshId now title : String) (todos : List Todo) : List Todo :=
  let t := jsTrim title
  if t = "" then todos
  else { id := freshId, title := t, completed := false, createdAt := now } :: todos

/-- `handleToggleTodo` (App.tsx lines 82–86): map over the list, flipping
`completed` on every todo whose id matches. -/
def toggleTodo (id : String) (todos : List Todo) : List Todo :=
  todos.map fun t => if t.id = id then { t with completed := !t.completed } else t

/-- `handleDeleteTodo` (App.tsx lines 88–90): keep the todos whose id differs. -/
def removeTodo (id : String) (todos : List Todo) : List Todo :=
  todos.filter fun t => t.id ≠ id

/-- The list update of `handleEditSubmit` (App.tsx lines 97–107): trim the
edited title; if the trimmed title is empty the todo list is left unchanged
(the edit state is merely reset), otherwise replace the title of every todo
whose id matches. -/
def renameTodo (id newTitle : String) (todos : List Todo) : List Todo :=
  let t := jsTrim newTitle
  if t = "" then todos
  else todos.map fun x => if x.id = id then { x with title := t } else x

/-- `handleClearCompleted` (App.tsx lines 109–111): keep the non-completed
todos. -/
def clearCompleted (todos : List Todo) : List Todo :=
  todos.filter fun t => !t.completed

/-- The three filter modes of the UI. -/
inductive FilterMode where
  | all | active | completed
deriving DecidableEq, Repr

/-- `filteredTodos` (App.tsx lines 60–64): project the displayed sublist. -/
def filteredTodos (filter : FilterMode) (todos : List Todo) : List Todo :=
  match filter with
  | .active => todos.filter fun t => !t.completed
  | .completed => todos.filter fun t => t.completed
  | .all => todos

/-- `activeCount` (App.tsx line 113). -/
def activeCount (todos : List Todo) : Nat :=
  (todos.filter fun t => !t.completed).length

/-- The ids present in a todo list, in order. -/
def todoIds (todos : List Todo) : List String :=
  todos.map Todo.id

/-- One user-level mutation of the task store.  `add` carries the id and
timestamp the browser would generate at that moment. -/
inductive StoreOp where
  | add (freshId now title : String)
  | toggle (id : String)
  | rename (id newTitle : String)
  | remove (id : String)
  | clear
deriving DecidableEq, Repr

/-- Apply one store operation. -/
def applyOp (op : StoreOp) (todos : List Todo) : List Todo :=
  match op with
  | .add freshId now title => addTodo freshId now title todos
  | .toggle id => toggleTodo id todos
  | .rename id newTitle => renameTodo id newTitle todos
  | .remove id => removeTodo id todos
  | .clear => clearCompleted todos

/-- Apply a sequence of store operations, first operation first. -/
def applyOps (ops : List StoreOp) (todos : List Todo) : List Todo :=
  match ops with
  | [] => todos
  | op :: rest => applyOps rest (applyOp op todos)

/-- Each `add` in the sequence assigns an id that is not already present in
the list at the moment the `add` executes (the behaviour of
`crypto.randomUUID`). -/
def freshIds (ops : List StoreOp) (todos : List Todo) : Bool :=
  match ops with
  | [] => true
  | op :: rest =>
      (match op with
       | .add freshId _ _ => !decide (freshId ∈ todoIds todos)
       | _ => true) &&
      freshIds rest (applyOp op todos)

/-! ## JSON values

`JSON.parse` / `JSON.stringify` as used by the persistence codec.  A JSON
number is kept losslessly as its source lexeme (the application never computes
with numbers).  Object member lists are in property-insertion order. -/

/-- JSON values as produced by `JSON.parse`. -/
inductive Json where
  | null
  | bool (b : Bool)
  | num (raw : String)
  | str (s : String)
  | arr (elems : List Json)
  | obj (members : List (String × Json))

/-- A JSON number lexeme denotes zero iff every digit of its mantissa
(the part before any exponent marker) is `0`. -/
def jsonNumIsZero (raw : String) : Bool :=
  ((raw.data.takeWhile fun c => c ≠ 'e' ∧ c ≠ 'E').filter Char.isDigit).all (· == '0')

/-- JavaScript truthiness `Boolean(v)` of a field value; `none` is the absent
value `undefined`, which is falsy. -/
def jsTruthy : Option Json → Bool
  | none => false
  | some .null => false
  | some (.bool b) => b
  | some (.num raw) => !jsonNumIsZero raw
  | some (.str s) => !(s = "")
  | some (.arr _) => true
  | some (.obj _) => true

/-- JavaScript object-spread `{...v}`: the own enumerable properties of `v`.
Objects contribute their members, strings their indexed characters, arrays
their indexed elements; primitives contribute nothing. -/
def spreadFields : Json → List (String × Json)
  | .obj ms => ms
  | .str s => s.data.enum.map fun p => (toString p.1, Json.str ⟨[p.2]⟩)
  | .arr xs => xs.enum.map fun p => (toString p.1, p.2)
  | _ => []

/-- Assignment of property `k` in an object literal: overwrite in place when
the key is already present, otherwise append. -/
def objSetField (ms : List (String × Json)) (k : String) (v : Json) :
    List (String × Json) :=
  if ms.any fun m => m.1 = k then ms.map fun m => if m.1 = k then (k, v) else m
  else ms ++ [(k, v)]

/-- JavaScript property read `v.k`: throws (`.error`) on `null`, is the member
value on an object, and is `undefined` (`none`) on the other JSON values for
the one key the application reads (`"completed"`, which is neither a string /
array index nor `length`). -/
def jsGetField (v : Json) (k : String) : Except Unit (Option Json) :=
  match v with
  | .null => .error ()
  | .obj ms => .ok (ms.lookup k)
  | _ => .ok none

/-! ## JSON.stringify -/

/-- Lower-case hexadecimal digit for `n < 16`. -/
def hexDigitLower (n : Nat) : Char :=
  if n < 10 then Char.ofNat (48 + n) else Char.ofNat (87 + n)

/-- Upper-case hexadecimal digit for `n < 16`. -/
def hexDigitUpper (n : Nat) : Char :=
  if n < 10 then Char.ofNat (48 + n) else Char.ofNat (55 + n)

/-- The escape `JSON.stringify` applies to one character inside a string
literal: `"` and `\` get a backslash, the named control escapes are used for
backspace, tab, newline, form feed and carriage return, the remaining control
characters become `\u00xx`, and everything else is emitted verbatim. -/
def jsonEscapeChar (c : Char) : List Char :=
  if c = '"' then ['\\', '"']
  else if c = '\\' then ['\\', '\\']
  else if c = '\x08' then ['\\', 'b']
  else if c = '\t' then ['\\', 't']
  else if c = '\n' then ['\\', 'n']
  else if c = '\x0c' then ['\\', 'f']
  else if c = '\r' then ['\\', 'r']
  else if c.toNat < 0x20 then
    ['\\', 'u', '0', '0', hexDigitLower (c.toNat / 16), hexDigitLower (c.toNat % 16)]
  else [c]

/-- A JSON string literal: quote, escaped characters, quote. -/
def quoteJsonString (s : String) : List Char :=
  '"' :: s.data.flatMap jsonEscapeChar ++ ['"']

mutual

/-- `JSON.stringify` of a JSON value (no indentation argument). -/
def stringifyJson : Json → List Char
  | .null => 'n' :: 'u' :: 'l' :: 'l' :: []
  | .bool true => 't' :: 'r' :: 'u' :: 'e' :: []
  | .bool false => 'f' :: 'a' :: 'l' :: 's' :: 'e' :: []
  | .num raw => raw.data
  | .str s => quoteJsonString s
  | .arr xs => '[' :: (stringifyElems xs ++ [']'])
  | .obj ms => '\x7b' :: (stringifyMembers ms ++ ['\x7d'])

/-- Comma-separated serialization of array elements. -/
def stringifyElems : List Json → List Char
  | [] => []
  | [x] => stringifyJson x
  | x :: y :: rest => stringifyJson x ++ ',' :: stringifyElems (y :: rest)

/-- Comma-separated serialization of object members. -/
def stringifyMembers : List (String × Json) → List Char
  | [] => []
  | [(k, v)] => quoteJsonString k ++ ':' :: stringifyJson v
  | (k, v) :: m :: rest =>
      quoteJsonString k ++ ':' :: stringifyJson v ++ ',' :: stringifyMembers (m :: rest)

end

/-! ## JSON.parse -/

/-- JSON insignificant whitespace. -/
def isJsonWs (c : Char) : Bool :=
  c == ' ' || c == '\t' || c == '\n' || c == '\r'

/-- Skip insignificant whitespace. -/
def skipJsonWs (cs : List Char) : List Char :=
  cs.dropWhile isJsonWs

/-- Value of one hexadecimal digit (either case). -/
def hexVal (c : Char) : Option Nat :=
  if 48 ≤ c.toNat ∧ c.toNat ≤ 57 then some (c.toNat - 48)
  else if 97 ≤ c.toNat ∧ c.toNat ≤ 102 then some (c.toNat - 87)
  else if 65 ≤ c.toNat ∧ c.toNat ≤ 70 then some (c.toNat - 55)
  else none

/-- The single-character JSON string escapes. -/
def jsonUnescape (c : Char) : Option Char :=
  if c = '"' then some '"'
  else if c = '\\' then some '\\'
  else if c = '/' then some '/'
  else if c = 'b' then some '\x08'
  else if c = 'f' then some '\x0c'
  else if c = 'n' then some '\n'
  else if c = 'r' then some '\r'
  else if c = 't' then some '\t'
  else none

/-- Parse the body of a JSON string literal (the opening quote already
consumed), returning the decoded characters and the remaining input.  A
`\uXXXX` escape denotes the scalar value `XXXX`; the UTF-16 surrogate-pair
combination of JavaScript is outside the model (the codec never emits
surrogate escapes). -/
def parseJsonStringBody : List Char → Option (List Char × List Char)
  | [] => none
  | '"' :: rest => some ([], rest)
  | '\\' :: rest =>
    match rest with
    | 'u' :: h1 :: h2 :: h3 :: h4 :: rest2 =>
      match hexVal h1, hexVal h2, hexVal h3, hexVal h4 with
      | some a, some b, some c, some d =>
        match parseJsonStringBody rest2 with
        | some (s, rem) => some (Char.ofNat (((a * 16 + b) * 16 + c) * 16 + d) :: s, rem)
        | none => none
      | _, _, _, _ => none
    | c :: rest2 =>
      match jsonUnescape c with
      | some e =>
        match parseJsonStringBody rest2 with
        | some (s, rem) => some (e :: s, rem)
        | none => none
      | none => none
    | [] => none
  | c :: rest =>
    if c.toNat < 0x20 then none
    else
      match parseJsonStringBody rest with
      | some (s, rem) => some (c :: s, rem)
      | none => none

/-- Decimal digits prefix of the input, with the rest. -/
def takeDigits (cs : List Char) : List Char × List Char :=
  (cs.takeWhile Char.isDigit, cs.dropWhile Char.isDigit)

/-- Parse the JSON `int` production (after any minus sign): `0`, or a nonzero
digit followed by digits. -/
def parseJsonInt (cs : List Char) : Option (List Char × List Char) :=
  match cs with
  | '0' :: rest => some (['0'], rest)
  | c :: _ =>
    if c.isDigit then some (takeDigits cs) else none
  | [] => none

/-- Parse the optional JSON `frac` production: `.` followed by one or more
digits; returns the consumed lexeme (possibly empty). -/
def parseJsonFrac (cs : List Char) : Option (List Char × List Char) :=
  match cs with
  | '.' :: rest =>
    match takeDigits rest with
    | ([], _) => none
    | (ds, rem) => some ('.' :: ds, rem)
  | _ => some ([], cs)

/-- Parse the optional JSON `exp` production: `e`/`E`, an optional sign, one
or more digits; returns the consumed lexeme (possibly empty). -/
def parseJsonExp (cs : List Char) : Option (List Char × List Char) :=
  match cs with
  | c :: rest =>
    if c = 'e' ∨ c = 'E' then
      match rest with
      | s :: rest2 =>
        if s = '+' ∨ s = '-' then
          match takeDigits rest2 with
          | ([], _) => none
          | (ds, rem) => some (c :: s :: ds, rem)
        else
          match takeDigits rest with
          | ([], _) => none
          | (ds, rem) => some (c :: ds, rem)
      | [] => none
    else some ([], cs)
  | [] => some ([], cs)

/-- Parse a JSON number, returning its full lexeme and the rest. -/
def parseJsonNumber (cs : List Char) : Option (List Char × List Char) :=
  let (sign, cs1) : List Char × List Char :=
    match cs with
    | '-' :: rest => (['-'], rest)
    | _ => ([], cs)
  match parseJsonInt cs1 with
  | none => none
  | some (ip, cs2) =>
    match parseJsonFrac cs2 with
    | none => none
    | some (fp, cs3) =>
      match parseJsonExp cs3 with
      | none => none
      | some (ep, cs4) => some (sign ++ ip ++ fp ++ ep, cs4)


mutual

/-- Recursive-descent JSON value parser.  The input starts at a value token
(leading whitespace already skipped); the result is the value and the
unconsumed input.  `fuel` only bounds the recursion and decreases by one on
each nested call; every nested call consumes at least one character first, so
any fuel exceeding the input length is enough. -/
def parseJsonValue : Nat → List Char → Option (Json × List Char)
  | 0, _ => none
  | Nat.succ fuel, cs =>
    match cs with
    | 'n' :: 'u' :: 'l' :: 'l' :: rest => some (.null, rest)
    | 't' :: 'r' :: 'u' :: 'e' :: rest => some (.bool true, rest)
    | 'f' :: 'a' :: 'l' :: 's' :: 'e' :: rest => some (.bool false, rest)
    | '"' :: rest =>
      match parseJsonStringBody rest with
      | some (s, rem) => some (.str ⟨s⟩, rem)
      | none => none
    | '[' :: rest =>
      match skipJsonWs rest with
      | ']' :: rem => some (.arr [], rem)
      | cs2 =>
        match parseJsonElems fuel cs2 with
        | some (xs, rem) => some (.arr xs, rem)
        | none => none
    | '\x7b' :: rest =>
      match skipJsonWs rest with
      | '\x7d' :: rem => some (.obj [], rem)
      | cs2 =>
        match parseJsonMembers fuel cs2 with
        | some (pairs, rem) =>
          some (.obj (pairs.foldl (fun acc p => objSetField acc p.1 p.2) []), rem)
        | none => none
    | _ =>
      match parseJsonNumber cs with
      | some (raw, rem) => some (.num ⟨raw⟩, rem)
      | none => none

/-- Parse one or more comma-separated array elements up to the closing
bracket.  The input starts at the first element's value token. -/
def parseJsonElems : Nat → List Char → Option (List Json × List Char)
  | 0, _ => none
  | Nat.succ fuel, cs =>
    match parseJsonValue fuel cs with
    | none => none
    | some (v, rem) =>
      match skipJsonWs rem with
      | ',' :: rem2 =>
        match parseJsonElems fuel (skipJsonWs rem2) with
        | some (vs, rem3) => some (v :: vs, rem3)
        | none => none
      | ']' :: rem2 => some ([v], rem2)
      | _ => none

/-- Parse one or more comma-separated object members up to the closing brace,
returned as the raw key/value pairs in source order.  The input starts at the
first member's key token. -/
def parseJsonMembers : Nat → List Char → Option (List (String × Json) × List Char)
  | 0, _ => none
  | Nat.succ fuel, cs =>
    match cs with
    | '"' :: rest =>
      match parseJsonStringBody rest with
      | none => none
      | some (k, rem) =>
        match skipJsonWs rem with
        | ':' :: rem2 =>
          match parseJsonValue fuel (skipJsonWs rem2) with
          | none => none
          | some (v, rem3) =>
            match skipJsonWs rem3 with
            | ',' :: rem4 =>
              match parseJsonMembers fuel (skipJsonWs rem4) with
              | some (ms, rem5) => some ((⟨k⟩, v) :: ms, rem5)
              | none => none
            | '\x7d' :: rem4 => some ([(⟨k⟩, v)], rem4)
            | _ => none
        | _ => none
    | _ => none

end

/-- `JSON.parse`: parse a complete JSON document; anything but whitespace
after the value is an error.  `none` models a thrown `SyntaxError`.  The
fuel `length + 2` can never run out, since each recursion level consumes at
least one character. -/
def jsonParse (s : String) : Option Json :=
  match parseJsonValue (s.length + 2) (skipJsonWs s.data) with
  | some (j, rest) => if skipJsonWs rest = [] then some j else none
  | none => none

/-! ## encodeURIComponent / decodeURIComponent -/

/-- The characters `encodeURIComponent` leaves unescaped:
`A–Z a–z 0–9 - _ . ! ~ * ' ( )`. -/
def isUriUnreserved (c : Char) : Bool :=
  c.isAlpha || c.isDigit || c == '-' || c == '_' || c == '.' || c == '!' ||
  c == '~' || c == '*' || c == '\'' || c == '(' || c == ')'

/-- UTF-8 bytes of a Unicode scalar value. -/
def utf8Bytes (n : Nat) : List Nat :=
  if n < 0x80 then [n]
  else if n < 0x800 then [0xc0 + n / 64, 0x80 + n % 64]
  else if n < 0x10000 then [0xe0 + n / 4096, 0x80 + (n / 64) % 64, 0x80 + n % 64]
  else [0xf0 + n / 0x40000, 0x80 + (n / 4096) % 64, 0x80 + (n / 64) % 64, 0x80 + n % 64]

/-- `%XX` escape of one byte, upper-case hexadecimal. -/
def percentByte (b : Nat) : List Char :=
  ['%', hexDigitUpper (b / 16), hexDigitUpper (b % 16)]

/-- `encodeURIComponent` on one character. -/
def encodeUriChar (c : Char) : List Char :=
  if isUriUnreserved c then [c] else (utf8Bytes c.toNat).flatMap percentByte

/-- `encodeURIComponent`.  (The URIError on lone UTF-16 surrogates cannot
arise: Lean strings contain scalar values only.) -/
def encodeURIComponent (s : String) : String :=
  ⟨s.data.flatMap encodeUriChar⟩

/-- Read one `%XX` escape: the byte value and the remaining input. -/
def readPercentByte : List Char → Option (Nat × List Char)
  | '%' :: h1 :: h2 :: rest =>
    match hexVal h1, hexVal h2 with
    | some x, some y => some (16 * x + y, rest)
    | _, _ => none
  | _ => none

/-- Given the leading UTF-8 byte `b0` (already read), read the percent-encoded
continuation bytes and return the decoded scalar value.  Continuation ranges
are checked; overlong encodings and surrogate values are rejected (`none`
models the `URIError`). -/
def readUtf8Cont (b0 : Nat) (cs : List Char) : Option (Nat × List Char) :=
  if b0 < 0x80 then some (b0, cs)
  else if b0 < 0xc2 then none
  else if b0 < 0xe0 then
    match readPercentByte cs with
    | some (b1, rest) =>
      if 0x80 ≤ b1 ∧ b1 < 0xc0 then some ((b0 - 0xc0) * 64 + (b1 - 0x80), rest)
      else none
    | none => none
  else if b0 < 0xf0 then
    match readPercentByte cs with
    | some (b1, rest) =>
      match readPercentByte rest with
      | some (b2, rest2) =>
        if (0x80 ≤ b1 ∧ b1 < 0xc0) ∧ (0x80 ≤ b2 ∧ b2 < 0xc0) ∧
           (b0 ≠ 0xe0 ∨ 0xa0 ≤ b1) ∧ (b0 ≠ 0xed ∨ b1 < 0xa0) then
          some ((b0 - 0xe0) * 4096 + (b1 - 0x80) * 64 + (b2 - 0x80), rest2)
        else none
      | none => none
    | none => none
  else if b0 < 0xf5 then
    match readPercentByte cs with
    | some (b1, rest) =>
      match readPercentByte rest with
      | some (b2, rest2) =>
        match readPercentByte rest2 with
        | some (b3, rest3) =>
          if (0x80 ≤ b1 ∧ b1 < 0xc0) ∧ (0x80 ≤ b2 ∧ b2 < 0xc0) ∧
             (0x80 ≤ b3 ∧ b3 < 0xc0) ∧
             (b0 ≠ 0xf0 ∨ 0x90 ≤ b1) ∧ (b0 ≠ 0xf4 ∨ b1 < 0x90) then
            some ((b0 - 0xf0) * 0x40000 + (b1 - 0x80) * 4096 +
                    (b2 - 0x80) * 64 + (b3 - 0x80), rest3)
          else none
        | none => none
      | none => none
    | none => none
  else none

/-- The decoding loop of `decodeURIComponent`: plain characters pass through,
`%XX` sequences are decoded as strict UTF-8.  `none` models the thrown
`URIError`.  `fuel` decreases once per decoded character, each of which
consumes at least one input character, so fuel equal to the input length can
never run out. -/
def percentDecodeLoop : Nat → List Char → Option (List Char)
  | _, [] => some []
  | Nat.succ fuel, '%' :: h1 :: h2 :: rest =>
    match hexVal h1, hexVal h2 with
    | some x, some y =>
      match readUtf8Cont (16 * x + y) rest with
      | some (n, rest2) => (percentDecodeLoop fuel rest2).map (Char.ofNat n :: ·)
      | none => none
    | _, _ => none
  | Nat.succ _, ['%'] => none
  | Nat.succ _, ['%', _] => none
  | Nat.succ fuel, c :: rest => (percentDecodeLoop fuel rest).map (c :: ·)
  | 0, _ => none

/-- `decodeURIComponent`; `none` models the thrown `URIError`. -/
def decodeURIComponent (s : String) : Option String :=
  (percentDecodeLoop s.data.length s.data).map fun cs => ⟨cs⟩

/-! ## The browser cookie jar and the cookie helpers of App.tsx -/

/-- The browser's cookie store for this page: name/value pairs, values kept
exactly as written (percent-encoded).  `document.cookie` reads render it as
`name1=value1; name2=value2`. -/
abbrev CookieJar := List (String × String)

/-- JavaScript `document.cookie.split('; ')`: split on the two-character
separator `"; "`. -/
def splitOnSemiSpace : List Char → List (List Char)
  | [] => [[]]
  | ';' :: ' ' :: rest => [] :: splitOnSemiSpace rest
  | c :: rest =>
    match splitOnSemiSpace rest with
    | [] => [[c]]
    | s :: ss => (c :: s) :: ss

/-- JavaScript `cookie.split('=')`: split on every `=`. -/
def splitOnEq : List Char → List (List Char)
  | [] => [[]]
  | '=' :: rest => [] :: splitOnEq rest
  | c :: rest =>
    match splitOnEq rest with
    | [] => [[c]]
    | s :: ss => (c :: s) :: ss

/-- `parts.join(sep)` for a one-character separator. -/
def joinWithChar (sep : Char) : List (List Char) → List Char
  | [] => []
  | [s] => s
  | s :: t :: rest => s ++ sep :: joinWithChar sep (t :: rest)

/-- The `name=value` texts of the jar entries. -/
def cookieEntries (jar : CookieJar) : List (List Char) :=
  jar.map fun p => p.1.data ++ '=' :: p.2.data

/-- Join cookie entries with the `"; "` separator. -/
def joinSemiSpace : List (List Char) → List Char
  | [] => []
  | [s] => s
  | s :: t :: rest => s ++ ';' :: ' ' :: joinSemiSpace (t :: rest)

/-- The rendered `document.cookie` string: `name1=value1; name2=value2`. -/
def documentCookieGet (jar : CookieJar) : String :=
  ⟨joinSemiSpace (cookieEntries jar)⟩

/-- An assignment `document.cookie = str`: the browser reads the `name=value`
pair before the first `;` (the attribute list after it does not change the
stored value) and updates the cookie of that name, or appends a new one. -/
def documentCookieSet (str : String) (jar : CookieJar) : CookieJar :=
  let pair := str.data.takeWhile fun c => c ≠ ';'
  let name : String := ⟨pair.takeWhile fun c => c ≠ '='⟩
  let value : String :=
    ⟨((pair.dropWhile fun c => c ≠ '=').drop 1)⟩
  if jar.any fun p => p.1 = name then
    jar.map fun p => if p.1 = name then (name, value) else p
  else jar ++ [(name, value)]

/-- `setCookie` (App.tsx lines 13–17).  The interpolated `expires` date only
lands in the attribute list after the first `;`, which the browser does not
store in the value, so the `days` argument does not influence the jar
contents within the model. -/
def setCookie (name value : String) (days : Nat) (jar : CookieJar) : CookieJar :=
  documentCookieSet
    (name ++ "=" ++ encodeURIComponent value ++ ";expires=" ++ toString days ++
      " days from now;path=/") jar

/-- `getCookie` (App.tsx lines 19–28): split `document.cookie` on `"; "`,
split each cookie on `"="`, and for the first key equal to `name` return
`decodeURIComponent` of the rest rejoined with `"="`.  `.error` models the
`URIError` that `decodeURIComponent` may throw; `.ok none` is the `null`
fall-through. -/
def getCookieLoop (name : String) : List (List Char) → Except Unit (Option String)
  | [] => .ok none
  | cookie :: rest =>
    match splitOnEq cookie with
    | [] => getCookieLoop name rest
    | key :: restParts =>
      if (⟨key⟩ : String) = name then
        match percentDecodeLoop (joinWithChar '=' restParts).length
                (joinWithChar '=' restParts) with
        | some s => .ok (some ⟨s⟩)
        | none => .error ()
      else getCookieLoop name rest

/-- `getCookie` (App.tsx lines 19–28). -/
def getCookie (name : String) (jar : CookieJar) : Except Unit (Option String) :=
  let cookieStr := documentCookieGet jar
  let cookies := if cookieStr = "" then [] else splitOnSemiSpace cookieStr.data
  getCookieLoop name cookies

/-- The cookie name of App.tsx. -/
def COOKIE_NAME : String := "react_todo_list"

/-- The cookie lifetime of App.tsx (days). -/
def COOKIE_MAX_AGE_DAYS : Nat := 30

/-- The JSON object `JSON.stringify` sees for a `Todo` value (property
insertion order of the object literal in `handleAddTodo`). -/
def todoToJson (t : Todo) : Json :=
  .obj [("id", .str t.id), ("title", .str t.title),
        ("completed", .bool t.completed), ("createdAt", .str t.createdAt)]

/-- `saveTodosToCookie` (App.tsx lines 45–47). -/
def saveTodosToCookie (todos : List Todo) (jar : CookieJar) : CookieJar :=
  setCookie COOKIE_NAME ⟨stringifyJson (.arr (todos.map todoToJson))⟩
    COOKIE_MAX_AGE_DAYS jar

/-- The element transform of `loadTodosFromCookie`:
`(t) => ({...t, completed: Boolean(t.completed)})`.  Reading `.completed`
off a `null` element throws a TypeError (`.error`). -/
def coerceLoadedRecord (t : Json) : Except Unit Json :=
  match jsGetField t "completed" with
  | .error e => .error e
  | .ok fld => .ok (.obj (objSetField (spreadFields t) "completed" (.bool (jsTruthy fld))))

/-- `parsed.map` over the element transform, propagating a thrown exception. -/
def coerceLoadedRecords : List Json → Except Unit (List Json)
  | [] => .ok []
  | t :: rest =>
    match coerceLoadedRecord t with
    | .error e => .error e
    | .ok v =>
      match coerceLoadedRecords rest with
      | .error e => .error e
      | .ok vs => .ok (v :: vs)

/-- `loadTodosFromCookie` (App.tsx lines 30–43).  The `try … catch` returns
`[]` on any thrown exception; `if (!raw) return []` covers both a missing
cookie (`null`) and an empty string; `if (!Array.isArray(parsed)) return []`
rejects non-array documents; the surviving elements are mapped through the
`completed` coercion.  The function returns the raw JavaScript objects the
code produces (the `as Todo[]` assertion checks nothing). -/
def loadTodosFromCookie (jar : CookieJar) : List Json :=
  match getCookie COOKIE_NAME jar with
  | .error _ => []
  | .ok none => []
  | .ok (some raw) =>
    if raw = "" then []
    else
      match jsonParse raw with
      | none => []
      | some (.arr elems) =>
        match coerceLoadedRecords elems with
        | .ok out => out
        | .error _ => []
      | some _ => []

/-! ## Helper lemmas -/

theorem toggleTodo_length (id : String) (todos : List Todo) :
    (toggleTodo id todos).length = todos.length := by
  simp [toggleTodo]

theorem renameTodo_length (id newTitle : String) (todos : List Todo) :
    (renameTodo id newTitle todos).length = todos.length := by
  by_cases h : jsTrim newTitle = "" <;> simp [renameTodo, h]

/-- A sample list with distinct ids: one active, one completed task. -/
def demoTodos : List Todo :=
  [{ id := "1", title := "alpha", completed := false, createdAt := "t1" },
   { id := "2", title := "beta", completed := true, createdAt := "t2" }]

/-! ## Claims -/

/-- Claim C5: `add(title)` trims the title; if the trimmed result is empty the
list is unchanged, otherwise exactly the new task — trimmed title, the fresh
id, `completed = false`, `createdAt` the current time — is prepended, with the
existing tasks unchanged and in their original order. -/
theorem addTodo_spec (freshId now title : String) (todos : List Todo) :
    (jsTrim title = "" → addTodo freshId now title todos = todos) ∧
    (jsTrim title ≠ "" →
      addTodo freshId now title todos =
        { id := freshId, title := jsTrim title, completed := false,
          createdAt := now } :: todos) := by
  constructor <;> intro h <;> simp [addTodo, h]

/-- Witness for C5 at `add("   ")` and `add(" Buy milk ")`. -/
theorem addTodo_spec_witness :
    addTodo "id1" "t0" "   " demoTodos = demoTodos ∧
    addTodo "id2" "t0" " Buy milk " [] =
      [{ id := "id2", title := jsTrim " Buy milk ", completed := false,
         createdAt := "t0" }] :=
  ⟨(addTodo_spec "id1" "t0" "   " demoTodos).1 (by decide),
   (addTodo_spec "id2" "t0" " Buy milk " []).2 (by decide)⟩

/-- Claim C6: `toggle(id)` flips `completed` exactly at the positions holding
the given id (so, on a list with unique ids, at the one task with that id),
changing no other field, no other task and no ordering; it is a no-op when no
task has the id; and it is an involution. -/
theorem toggleTodo_spec (id : String) (todos : List Todo) :
    (∀ i (h : i < todos.length),
        (toggleTodo id todos).get ⟨i, (toggleTodo_length id todos).symm ▸ h⟩ =
          (if (todos.get ⟨i, h⟩).id = id
           then { todos.get ⟨i, h⟩ with completed := !(todos.get ⟨i, h⟩).completed }
           else todos.get ⟨i, h⟩)) ∧
    (id ∉ todoIds todos → toggleTodo id todos = todos) ∧
    toggleTodo id (toggleTodo id todos) = todos := by
  refine ⟨?_, ?_, ?_⟩
  · intro i h
    simp [toggleTodo]
  · intro hid
    have : ∀ t ∈ todos, t.id ≠ id := by
      intro t ht heq
      exact hid (heq ▸ List.mem_map_of_mem Todo.id ht)
    calc toggleTodo id todos
        = todos.map (fun t => t) := List.map_congr_left (by
          intro t ht
          simp [this t ht])
      _ = todos := List.map_id _
  · unfold toggleTodo
    rw [List.map_map]
    calc todos.map _
        = todos.map (fun t => t) := by
          apply List.map_congr_left
          intro t _
          by_cases hid : t.id = id
          · cases t
            simp_all
          · simp [hid]
      _ = todos := List.map_id _

/-- Witness for C6 on `demoTodos`. -/
theorem toggleTodo_spec_witness :
    (0 < demoTodos.length ∧
      (toggleTodo "2" demoTodos).get ⟨0, by decide⟩ =
        (if (demoTodos.get ⟨0, by decide⟩).id = "2"
         then { demoTodos.get ⟨0, by decide⟩ with
                completed := !(demoTodos.get ⟨0, by decide⟩).completed }
         else demoTodos.get ⟨0, by decide⟩)) ∧
    ("zzz" ∉ todoIds demoTodos ∧ toggleTodo "zzz" demoTodos = demoTodos) :=
  ⟨⟨by decide, (toggleTodo_spec "2" demoTodos).1 0 (by decide)⟩,
   ⟨by decide, (toggleTodo_spec "zzz" demoTodos).2.1 (by decide)⟩⟩

/-- Claim C7: `rename(id, newTitle)` trims `newTitle`; if the trimmed result
is empty the list is unchanged (the edit is discarded); otherwise exactly the
positions holding the given id (on a unique-id list, the one task with that
id) get the trimmed string as title, with `id`, `completed`, `createdAt`, all
other tasks and the order untouched; it is a no-op when no task has the id. -/
theorem renameTodo_spec (id newTitle : String) (todos : List Todo) :
    (jsTrim newTitle = "" → renameTodo id newTitle todos = todos) ∧
    (jsTrim newTitle ≠ "" →
      ∀ i (h : i < todos.length),
        (renameTodo id newTitle todos).get
            ⟨i, (renameTodo_length id newTitle todos).symm ▸ h⟩ =
          (if (todos.get ⟨i, h⟩).id = id
           then { todos.get ⟨i, h⟩ with title := jsTrim newTitle }
           else todos.get ⟨i, h⟩)) ∧
    (id ∉ todoIds todos → renameTodo id newTitle todos = todos) := by
  refine ⟨?_, ?_, ?_⟩
  · intro h
    simp [renameTodo, h]
  · intro h i hi
    simp [renameTodo, h]
  · intro hid
    have hne : ∀ t ∈ todos, t.id ≠ id := by
      intro t ht heq
      exact hid (heq ▸ List.mem_map_of_mem Todo.id ht)
    by_cases h : jsTrim newTitle = ""
    · simp [renameTodo, h]
    · simp only [renameTodo]
      rw [if_neg h]
      calc todos.map _
          = todos.map (fun t => t) := List.map_congr_left (by
            intro t ht
            simp [hne t ht])
        _ = todos := List.map_id _

/-- Witness for C7: `rename(id, "  ")` discards the edit, a real rename
replaces one title, and renames of an absent id are no-ops. -/
theorem renameTodo_spec_witness :
    renameTodo "1" "  " demoTodos = demoTodos ∧
    (0 < demoTodos.length ∧
      (renameTodo "1" " gamma " demoTodos).get ⟨0, by decide⟩ =
        (if (demoTodos.get ⟨0, by decide⟩).id = "1"
         then { demoTodos.get ⟨0, by decide⟩ with title := jsTrim " gamma " }
         else demoTodos.get ⟨0, by decide⟩)) ∧
    renameTodo "zzz" "new" demoTodos = demoTodos :=
  ⟨(renameTodo_spec "1" "  " demoTodos).1 (by decide),
   ⟨by decide, (renameTodo_spec "1" " gamma " demoTodos).2.1 (by decide) 0 (by decide)⟩,
   (renameTodo_spec "zzz" "new" demoTodos).2.2 (by decide)⟩

/-- Claim C8: `clearCompleted()` removes exactly the completed tasks in one
step: every remaining task is active, the remaining tasks appear unchanged and
in their original relative order (a sublist), every active task survives, and
the removed tasks are exactly the completed ones by count. -/
theorem clearCompleted_spec (todos : List Todo) :
    (∀ t ∈ clearCompleted todos, t.completed = false) ∧
    (clearCompleted todos).Sublist todos ∧
    (∀ t ∈ todos, t.completed = false → t ∈ clearCompleted todos) ∧
    (clearCompleted todos).length +
      (todos.filter fun t => t.completed).length = todos.length := by
  refine ⟨?_, ?_, ?_, ?_⟩
  · intro t ht
    have := List.of_mem_filter ht
    simpa using this
  · exact List.filter_sublist todos
  · intro t ht hc
    exact List.mem_filter.2 ⟨ht, by simp [hc]⟩
  · have h := @List.length_eq_length_filter_add _ todos (fun t => !t.completed)
    simp only [Bool.not_not] at h
    simpa [clearCompleted] using h.symm

/-- Tasks `{A: completed, B: active, C: completed}` of the C8 example. -/
def abcTodos : List Todo :=
  [{ id := "A", title := "a", completed := true, createdAt := "t" },
   { id := "B", title := "b", completed := false, createdAt := "t" },
   { id := "C", title := "c", completed := true, createdAt := "t" }]

/-- Witness for C8 on `{A: completed, B: active, C: completed}`, which leaves
only `{B}`. -/
theorem clearCompleted_spec_witness :
    clearCompleted abcTodos =
      [{ id := "B", title := "b", completed := false, createdAt := "t" }] ∧
    ({ id := "B", title := "b", completed := false, createdAt := "t" } : Todo) ∈
      clearCompleted abcTodos :=
  ⟨by decide,
   (clearCompleted_spec abcTodos).2.2.1 _ (by decide) (by decide)⟩

/-- Claim C9: `filtered` returns the input unchanged for `all`; for `active`
and `completed` it returns exactly the tasks with `completed` false resp. true
as order-preserving sublists; the two projections partition the list, and
together they reconstitute it. -/
theorem filteredTodos_spec (todos : List Todo) :
    filteredTodos .all todos = todos ∧
    (∀ t ∈ filteredTodos .active todos, t.completed = false) ∧
    (∀ t ∈ filteredTodos .completed todos, t.completed = true) ∧
    (filteredTodos .active todos).Sublist todos ∧
    (filteredTodos .completed todos).Sublist todos ∧
    (∀ t ∈ todos, t.completed = false → t ∈ filteredTodos .active todos) ∧
    (∀ t ∈ todos, t.completed = true → t ∈ filteredTodos .completed todos) ∧
    (filteredTodos .active todos ++ filteredTodos .completed todos).Perm todos := by
  refine ⟨rfl, ?_, ?_, List.filter_sublist todos, List.filter_sublist todos, ?_, ?_, ?_⟩
  · intro t ht
    simpa using List.of_mem_filter ht
  · intro t ht
    simpa using List.of_mem_filter ht
  · intro t ht hc
    exact List.mem_filter.2 ⟨ht, by simp [hc]⟩
  · intro t ht hc
    exact List.mem_filter.2 ⟨ht, by simp [hc]⟩
  · have h := List.filter_append_perm (fun t => !t.completed) todos
    simp only [Bool.not_not] at h
    simpa [filteredTodos] using h

/-- Tasks sharing one id, as they can enter the store through `load()`. -/
def dupTodos : List Todo :=
  [{ id := "1", title := "first", completed := false, createdAt := "t" },
   { id := "1", title := "second", completed := false, createdAt := "t" }]

/-- The persisted text of `dupTodos`: two records with the same `"id"`. -/
def dupTodosText : String :=
  "[\x7b\"id\":\"1\",\"title\":\"first\",\"completed\":false,\"createdAt\":\"t\"\x7d,\x7b\"id\":\"1\",\"title\":\"second\",\"completed\":false,\"createdAt\":\"t\"\x7d]"

set_option maxRecDepth 40000 in
/-- Claim C10: `toggle` and `rename` rewrite every task whose id matches, not
just the first: position-wise each matching index is updated (first two
conjuncts); on a two-task list sharing one id, `toggle` flips both and
`rename` retitles both (next two); and duplicate ids are reachable, because
`load()` hands back persisted records with equal `"id"` members without any
deduplication (last conjunct). -/
theorem updateAllMatches_spec (id newTitle : String) (todos : List Todo) :
    (∀ i (h : i < todos.length),
        (toggleTodo id todos).get ⟨i, (toggleTodo_length id todos).symm ▸ h⟩ =
          (if (todos.get ⟨i, h⟩).id = id
           then { todos.get ⟨i, h⟩ with completed := !(todos.get ⟨i, h⟩).completed }
           else todos.get ⟨i, h⟩)) ∧
    (jsTrim newTitle ≠ "" →
      ∀ i (h : i < todos.length),
        (renameTodo id newTitle todos).get
            ⟨i, (renameTodo_length id newTitle todos).symm ▸ h⟩ =
          (if (todos.get ⟨i, h⟩).id = id
           then { todos.get ⟨i, h⟩ with title := jsTrim newTitle }
           else todos.get ⟨i, h⟩)) ∧
    toggleTodo "1" dupTodos =
      [{ id := "1", title := "first", completed := true, createdAt := "t" },
       { id := "1", title := "second", completed := true, createdAt := "t" }] ∧
    renameTodo "1" "both" dupTodos =
      [{ id := "1", title := "both", completed := false, createdAt := "t" },
       { id := "1", title := "both", completed := false, createdAt := "t" }] ∧
    loadTodosFromCookie [(COOKIE_NAME, dupTodosText)] = dupTodos.map todoToJson := by
  refine ⟨?_, ?_, by decide, by decide, rfl⟩
  · intro i h
    simp [toggleTodo]
  · intro hne i h
    simp [renameTodo, hne]

/-- Witness for C10 instantiating the positional conjuncts on `dupTodos`:
both positions carry the matching id and both are updated. -/
theorem updateAllMatches_spec_witness :
    (1 < dupTodos.length ∧
      (toggleTodo "1" dupTodos).get ⟨1, by decide⟩ =
        (if (dupTodos.get ⟨1, by decide⟩).id = "1"
         then { dupTodos.get ⟨1, by decide⟩ with
                completed := !(dupTodos.get ⟨1, by decide⟩).completed }
         else dupTodos.get ⟨1, by decide⟩)) ∧
    (jsTrim "both" ≠ "" ∧
      (renameTodo "1" "both" dupTodos).get ⟨1, by decide⟩ =
        (if (dupTodos.get ⟨1, by decide⟩).id = "1"
         then { dupTodos.get ⟨1, by decide⟩ with title := jsTrim "both" }
         else dupTodos.get ⟨1, by decide⟩)) :=
  ⟨⟨by decide, (updateAllMatches_spec "1" "x" dupTodos).1 1 (by decide)⟩,
   ⟨by decide, (updateAllMatches_spec "1" "both" dupTodos).2.1 (by decide) 1 (by decide)⟩⟩

theorem todoIds_toggleTodo (id : String) (todos : List Todo) :
    todoIds (toggleTodo id todos) = todoIds todos := by
  simp only [todoIds, toggleTodo, List.map_map]
  apply List.map_congr_left
  intro t _
  by_cases h : t.id = id <;> simp [h]

theorem todoIds_renameTodo (id newTitle : String) (todos : List Todo) :
    todoIds (renameTodo id newTitle todos) = todoIds todos := by
  by_cases ht : jsTrim newTitle = ""
  · simp [renameTodo, ht]
  · simp only [renameTodo]
    rw [if_neg ht]
    simp only [todoIds, List.map_map]
    apply List.map_congr_left
    intro t _
    by_cases h : t.id = id <;> simp [h]

/-- One store operation keeps distinct ids distinct, given that an `add`
uses an id not already present. -/
theorem todoIds_nodup_step (op : StoreOp) (todos : List Todo)
    (hnodup : (todoIds todos).Nodup)
    (hfresh : ∀ freshId now title, op = .add freshId now title →
      freshId ∉ todoIds todos) :
    (todoIds (applyOp op todos)).Nodup := by
  cases op with
  | add freshId now title =>
    have hni := hfresh freshId now title rfl
    simp only [applyOp, addTodo]
    by_cases h : jsTrim title = ""
    · simpa [h] using hnodup
    · rw [if_neg h]
      exact List.Nodup.cons (by simpa [todoIds] using hni) hnodup
  | toggle id => simpa [applyOp, todoIds_toggleTodo] using hnodup
  | rename id newTitle => simpa [applyOp, todoIds_renameTodo] using hnodup
  | remove id =>
    exact hnodup.sublist (List.Sublist.map Todo.id (List.filter_sublist todos))
  | clear =>
    exact hnodup.sublist (List.Sublist.map Todo.id (List.filter_sublist todos))

/-- Claim C3: under any sequence of add/toggle/rename/remove/clearCompleted
operations, task ids stay pairwise distinct, provided every `add` assigns an
id that is not already in the list. -/
theorem todoIds_nodup_invariant (ops : List StoreOp) (todos : List Todo)
    (hfresh : freshIds ops todos = true) (hnodup : (todoIds todos).Nodup) :
    (todoIds (applyOps ops todos)).Nodup := by
  induction ops generalizing todos with
  | nil => exact hnodup
  | cons op rest ih =>
    simp only [freshIds, Bool.and_eq_true] at hfresh
    refine ih (applyOp op todos) hfresh.2 ?_
    refine todoIds_nodup_step op todos hnodup ?_
    intro freshId now title heq
    subst heq
    simpa using hfresh.1

/-- Witness for C3: a concrete session from the empty list. -/
theorem todoIds_nodup_invariant_witness :
    freshIds
        [.add "a" "t1" "one", .add "b" "t2" "two", .toggle "a",
         .rename "b" "two again", .clear, .add "c" "t3" "three",
         .remove "a"] [] = true ∧
    (todoIds (applyOps
        [.add "a" "t1" "one", .add "b" "t2" "two", .toggle "a",
         .rename "b" "two again", .clear, .add "c" "t3" "three",
         .remove "a"] [])).Nodup :=
  ⟨by decide,
   todoIds_nodup_invariant _ [] (by decide) (by decide)⟩

theorem jsTrim_data (s : String) :
    (jsTrim s).data =
      List.rdropWhile isJsWhitespace (List.dropWhile isJsWhitespace s.data) := rfl

/-- Trimming is idempotent. -/
theorem jsTrim_idem (s : String) : jsTrim (jsTrim s) = jsTrim s := by
  apply String.ext
  rw [jsTrim_data, jsTrim_data]
  set p := isJsWhitespace with hp
  set m := List.dropWhile p s.data with hm
  have hdw : List.dropWhile p (List.rdropWhile p m) = List.rdropWhile p m := by
    rw [List.dropWhile_eq_self_iff]
    intro hl
    have hpref : List.rdropWhile p m <+: m := List.rdropWhile_prefix p m
    have hget := List.IsPrefix.get_eq hpref hl
    rw [hget]
    exact List.dropWhile_get_zero_not p s.data _
  rw [hdw]
  exact List.rdropWhile_idempotent p m

/-- Claim C4 (amended): the store operations preserve the invariant that every
title is non-empty and not whitespace-only — add and rename reject
empty-trimmed titles and store only trimmed ones.  (`load()`, by contrast,
performs no title validation; see the counterexample.) -/
theorem titlesValid_step (op : StoreOp) (todos : List Todo)
    (hinv : ∀ t ∈ todos, jsTrim t.title ≠ "") :
    ∀ t ∈ applyOp op todos, jsTrim t.title ≠ "" := by
  intro t ht
  cases op with
  | add freshId now title =>
    simp only [applyOp, addTodo] at ht
    by_cases he : jsTrim title = ""
    · rw [if_pos he] at ht
      exact hinv t ht
    · rw [if_neg he] at ht
      rcases List.mem_cons.1 ht with rfl | ht
      · simpa [jsTrim_idem] using he
      · exact hinv t ht
  | toggle id =>
    simp only [applyOp, toggleTodo] at ht
    obtain ⟨u, hu, rfl⟩ := List.mem_map.1 ht
    by_cases hid : u.id = id <;> simpa [hid] using hinv u hu
  | rename id newTitle =>
    simp only [applyOp, renameTodo] at ht
    by_cases he : jsTrim newTitle = ""
    · rw [if_pos he] at ht
      exact hinv t ht
    · rw [if_neg he] at ht
      obtain ⟨u, hu, rfl⟩ := List.mem_map.1 ht
      by_cases hid : u.id = id
      · simpa [hid, jsTrim_idem] using he
      · simpa [hid] using hinv u hu
  | remove id =>
    exact hinv t (List.mem_of_mem_filter ht)
  | clear =>
    exact hinv t (List.mem_of_mem_filter ht)

/-- Witness for C4 on a concrete add of an untrimmed title. -/
theorem titlesValid_step_witness :
    (∀ t ∈ demoTodos, jsTrim t.title ≠ "") ∧
    (∀ t ∈ applyOp (.add "9" "t9" "  hello  ") demoTodos, jsTrim t.title ≠ "") :=
  ⟨by decide, titlesValid_step (.add "9" "t9" "  hello  ") demoTodos (by decide)⟩

set_option maxRecDepth 40000 in
/-- Counterexample to C4 as stated: `load()` performs no title validation, so
a persisted record with a whitespace-only title enters the store — and is then
displayed and re-persisted — unchanged. -/
theorem load_admits_empty_title :
    loadTodosFromCookie
        [(COOKIE_NAME,
          "[\x7b\"id\":\"1\",\"title\":\" \",\"completed\":false,\"createdAt\":\"t\"\x7d]")] =
      [Json.obj [("id", Json.str "1"), ("title", Json.str " "),
                 ("completed", Json.bool false), ("createdAt", Json.str "t")]] ∧
    jsTrim " " = "" := ⟨rfl, rfl⟩

theorem lookup_eq_none_of_keys_ne {ms : List (String × Json)} {k : String}
    (h : ∀ m ∈ ms, m.1 ≠ k) : ms.lookup k = none := by
  induction ms with
  | nil => rfl
  | cons m rest ih =>
    have hk : (k == m.1) = false := by
      simp only [beq_eq_false_iff_ne, ne_eq]
      exact fun he => h m (List.mem_cons_self m rest) he.symm
    simp only [List.lookup, hk]
    exact ih fun x hx => h x (List.mem_cons_of_mem m hx)

theorem objSetField_lookup (ms : List (String × Json)) (k : String) (v : Json) :
    (objSetField ms k v).lookup k = some v := by
  unfold objSetField
  by_cases h : (ms.any fun m => m.1 = k) = true
  · rw [if_pos h]
    induction ms with
    | nil => simp at h
    | cons m rest ih =>
      by_cases hm : m.1 = k
      · rw [List.map_cons, if_pos hm]
        simp [List.lookup]
      · have h2 : (rest.any fun m => m.1 = k) = true := by
          simpa [hm] using h
        have hk : (k == m.1) = false := by
          simp only [beq_eq_false_iff_ne, ne_eq]
          exact fun he => hm he.symm
        rw [List.map_cons, if_neg hm]
        simp only [List.lookup, hk]
        exact ih h2
  · rw [if_neg h]
    induction ms with
    | nil => simp [List.lookup]
    | cons m rest ih =>
      simp only [List.any_cons, Bool.or_eq_true, decide_eq_true_eq, not_or] at h
      have hk : (k == m.1) = false := by
        simp only [beq_eq_false_iff_ne, ne_eq]
        exact fun he => h.1 he.symm
      simp only [List.cons_append, List.lookup, hk]
      exact ih (by simpa using h.2)

set_option maxRecDepth 40000 in
/-- Claim C1 (amended): `load()` never throws — every failure path is caught
and yields `[]`: an absent storage slot, unparseable content (such as the
literal text `not json`) and JSON documents that are not arrays all give the
empty list.  For an array, the code maps over the elements without per-record
shape validation; for each surviving record, `completed` is coerced to a
strict boolean member — a record with no `completed` key comes back with
`completed === false` appended, and any coerced record carries a boolean
`completed` member. -/
theorem load_error_handling :
    loadTodosFromCookie [] = [] ∧
    (∀ jar, getCookie COOKIE_NAME jar = .ok none → loadTodosFromCookie jar = []) ∧
    (∀ jar raw, getCookie COOKIE_NAME jar = .ok (some raw) → jsonParse raw = none →
      loadTodosFromCookie jar = []) ∧
    (∀ jar raw j, getCookie COOKIE_NAME jar = .ok (some raw) → jsonParse raw = some j →
      (∀ xs, j ≠ Json.arr xs) → loadTodosFromCookie jar = []) ∧
    loadTodosFromCookie [(COOKIE_NAME, "not json")] = [] ∧
    loadTodosFromCookie [(COOKIE_NAME, "[\x7b\"id\":\"1\",\"title\":\"x\"\x7d]")] =
      [Json.obj [("id", Json.str "1"), ("title", Json.str "x"),
                 ("completed", Json.bool false)]] ∧
    (∀ ms : List (String × Json), (∀ m ∈ ms, m.1 ≠ "completed") →
      coerceLoadedRecord (Json.obj ms) =
        .ok (Json.obj (ms ++ [("completed", Json.bool false)]))) ∧
    (∀ t v, coerceLoadedRecord t = .ok v →
      ∃ ms b, v = Json.obj ms ∧ ms.lookup "completed" = some (Json.bool b)) := by
  refine ⟨rfl, ?_, ?_, ?_, rfl, rfl, ?_, ?_⟩
  · intro jar h
    simp [loadTodosFromCookie, h]
  · intro jar raw h hp
    by_cases hr : raw = ""
    · simp [loadTodosFromCookie, h, hr]
    · simp [loadTodosFromCookie, h, hr, hp]
  · intro jar raw j h hp hj
    by_cases hr : raw = ""
    · simp [loadTodosFromCookie, h, hr]
    · cases j with
    | arr xs => exact absurd rfl (hj xs)
    | null => simp [loadTodosFromCookie, h, hr, hp]
    | bool b => simp [loadTodosFromCookie, h, hr, hp]
    | num raw2 => simp [loadTodosFromCookie, h, hr, hp]
    | str s => simp [loadTodosFromCookie, h, hr, hp]
    | obj ms => simp [loadTodosFromCookie, h, hr, hp]
  · intro ms hms
    have hlk : ms.lookup "completed" = none := lookup_eq_none_of_keys_ne hms
    have hany : (ms.any fun m => m.1 = "completed") = false := by
      rw [List.any_eq_false]
      intro m hm
      simpa using hms m hm
    simp [coerceLoadedRecord, jsGetField, hlk, jsTruthy, spreadFields, objSetField, hany]
  · intro t v hv
    cases t with
    | null => simp [coerceLoadedRecord, jsGetField] at hv
    | bool b =>
      simp only [coerceLoadedRecord, jsGetField, Except.ok.injEq] at hv
      exact ⟨_, _, hv.symm, objSetField_lookup _ _ _⟩
    | num raw =>
      simp only [coerceLoadedRecord, jsGetField, Except.ok.injEq] at hv
      exact ⟨_, _, hv.symm, objSetField_lookup _ _ _⟩
    | str s =>
      simp only [coerceLoadedRecord, jsGetField, Except.ok.injEq] at hv
      exact ⟨_, _, hv.symm, objSetField_lookup _ _ _⟩
    | arr xs =>
      simp only [coerceLoadedRecord, jsGetField, Except.ok.injEq] at hv
      exact ⟨_, _, hv.symm, objSetField_lookup _ _ _⟩
    | obj ms =>
      simp only [coerceLoadedRecord, jsGetField, Except.ok.injEq] at hv
      exact ⟨_, _, hv.symm, objSetField_lookup _ _ _⟩

/-- Witness for C1 instantiating the universally quantified conjuncts: a jar
with an unrelated cookie only (absent slot), a jar holding a boolean JSON
document (non-array), and a record with no `completed` key. -/
theorem load_error_handling_witness :
    (getCookie COOKIE_NAME [("other", "1")] = .ok none ∧
      loadTodosFromCookie [("other", "1")] = []) ∧
    (getCookie COOKIE_NAME [(COOKIE_NAME, "true")] = .ok (some "true") ∧
      jsonParse "true" = some (Json.bool true) ∧
      loadTodosFromCookie [(COOKIE_NAME, "true")] = []) ∧
    coerceLoadedRecord (Json.obj [("id", Json.str "1")]) =
      .ok (Json.obj [("id", Json.str "1"), ("completed", Json.bool false)]) := by
  refine ⟨⟨rfl, load_error_handling.2.1 [("other", "1")] rfl⟩,
          ⟨rfl, rfl, ?_⟩, ?_⟩
  · exact load_error_handling.2.2.2.1 [(COOKIE_NAME, "true")] "true" (Json.bool true)
      rfl rfl (fun xs h => Json.noConfusion h)
  · exact load_error_handling.2.2.2.2.2.2.1 [("id", Json.str "1")] (by
      intro m hm
      rcases List.mem_singleton.1 hm with rfl
      decide)

set_option maxRecDepth 40000 in
/-- Counterexample to C1 as stated: an array whose single element is the
number `1` — not a task-shaped record — does not load as the empty sequence;
the element is kept as `{completed: false}`. -/
theorem load_nonrecord_array_cex :
    loadTodosFromCookie [(COOKIE_NAME, "[1]")] =
      [Json.obj [("completed", Json.bool false)]] ∧
    loadTodosFromCookie [(COOKIE_NAME, "[1]")] ≠ [] := by
  have h : loadTodosFromCookie [(COOKIE_NAME, "[1]")] =
      [Json.obj [("completed", Json.bool false)]] := rfl
  exact ⟨h, by rw [h]; exact List.cons_ne_nil _ _⟩

/-! ## Round trip of the percent codec -/

theorem hexVal_hexDigitUpper (k : Nat) (h : k < 16) : hexVal (hexDigitUpper k) = some k := by
  interval_cases k <;> decide

theorem hexVal_hexDigitLower (k : Nat) (h : k < 16) : hexVal (hexDigitLower k) = some k := by
  interval_cases k <;> decide

theorem readPercentByte_percentByte (b : Nat) (hb : b < 256) (rest : List Char) :
    readPercentByte (percentByte b ++ rest) = some (b, rest) := by
  simp only [percentByte, List.cons_append, readPercentByte,
    hexVal_hexDigitUpper (b / 16) (by omega), hexVal_hexDigitUpper (b % 16) (by omega)]
  congr 1
  rw [Prod.ext_iff]
  exact ⟨by omega, rfl⟩

theorem percentDecodeLoop_cons_plain (c : Char) (hc : c ≠ '%') (rest : List Char)
    (fuel : Nat) :
    percentDecodeLoop (fuel + 1) (c :: rest) =
      (percentDecodeLoop fuel rest).map (c :: ·) := by
  rw [percentDecodeLoop.eq_def]
  split
  · simp_all
  · simp_all
  · simp_all
  · simp_all
  · rename_i heq h
    simp_all
  · simp_all

theorem percentDecodeLoop_encodeUriChar (c : Char) (rest : List Char) (fuel : Nat) :
    percentDecodeLoop (fuel + 1) (encodeUriChar c ++ rest) =
      (percentDecodeLoop fuel rest).map (c :: ·) := by
  by_cases hu : isUriUnreserved c
  · have hc : c ≠ '%' := by
      intro he
      rw [he] at hu
      exact absurd hu (by decide)
    simp only [encodeUriChar, hu, if_pos, List.cons_append, List.nil_append]
    exact percentDecodeLoop_cons_plain c hc rest fuel
  · simp only [encodeUriChar, hu, if_neg, Bool.false_eq_true, not_false_eq_true]
    have hval : c.toNat < 0xd800 ∨ (0xdfff < c.toNat ∧ c.toNat < 0x110000) := c.valid
    set n := c.toNat with hn
    by_cases h1 : n < 0x80
    · rw [show utf8Bytes n = [n] from by rw [utf8Bytes, if_pos h1]]
      simp only [List.flatMap_cons, List.flatMap_nil, List.append_nil, percentByte,
        List.cons_append, List.nil_append]
      rw [percentDecodeLoop]
      simp only [hexVal_hexDigitUpper (n / 16) (by omega),
        hexVal_hexDigitUpper (n % 16) (by omega)]
      rw [show 16 * (n / 16) + n % 16 = n from by omega]
      rw [readUtf8Cont, if_pos h1]
      simp [show Char.ofNat n = c from by rw [hn]; exact Char.ofNat_toNat c]
    · by_cases h2 : n < 0x800
      · rw [show utf8Bytes n = [0xc0 + n / 64, 0x80 + n % 64] from by
          rw [utf8Bytes, if_neg h1, if_pos h2]]
        simp only [List.flatMap_cons, List.flatMap_nil, List.append_nil,
          List.append_assoc]
        rw [show percentByte (0xc0 + n / 64) ++ (percentByte (0x80 + n % 64) ++ rest) =
            '%' :: hexDigitUpper ((0xc0 + n / 64) / 16) ::
              hexDigitUpper ((0xc0 + n / 64) % 16) ::
              (percentByte (0x80 + n % 64) ++ rest) from rfl]
        rw [percentDecodeLoop]
        simp only [hexVal_hexDigitUpper ((0xc0 + n / 64) / 16) (by omega),
          hexVal_hexDigitUpper ((0xc0 + n / 64) % 16) (by omega)]
        rw [show 16 * ((0xc0 + n / 64) / 16) + (0xc0 + n / 64) % 16 = 0xc0 + n / 64 from by
          omega]
        rw [readUtf8Cont, if_neg (by omega), if_neg (by omega), if_pos (by omega)]
        rw [readPercentByte_percentByte (0x80 + n % 64) (by omega)]
        have hscalar : Char.ofNat (n / 64 * 64 + n % 64) = c := by
          rw [show n / 64 * 64 + n % 64 = c.toNat from by omega]
          exact Char.ofNat_toNat c
        simp [show 0x80 ≤ 0x80 + n % 64 ∧ 0x80 + n % 64 < 0xc0 from by omega, hscalar]
      · by_cases h3 : n < 0x10000
        · rw [show utf8Bytes n =
              [0xe0 + n / 4096, 0x80 + (n / 64) % 64, 0x80 + n % 64] from by
            rw [utf8Bytes, if_neg h1, if_neg h2, if_pos h3]]
          simp only [List.flatMap_cons, List.flatMap_nil, List.append_nil,
            List.append_assoc]
          rw [show percentByte (0xe0 + n / 4096) ++
              (percentByte (0x80 + (n / 64) % 64) ++ (percentByte (0x80 + n % 64) ++ rest)) =
              '%' :: hexDigitUpper ((0xe0 + n / 4096) / 16) ::
                hexDigitUpper ((0xe0 + n / 4096) % 16) ::
                (percentByte (0x80 + (n / 64) % 64) ++ (percentByte (0x80 + n % 64) ++ rest))
              from rfl]
          rw [percentDecodeLoop]
          simp only [hexVal_hexDigitUpper ((0xe0 + n / 4096) / 16) (by omega),
            hexVal_hexDigitUpper ((0xe0 + n / 4096) % 16) (by omega)]
          rw [show 16 * ((0xe0 + n / 4096) / 16) + (0xe0 + n / 4096) % 16 =
              0xe0 + n / 4096 from by omega]
          rw [readUtf8Cont, if_neg (by omega), if_neg (by omega), if_neg (by omega),
            if_pos (by omega)]
          have hscalar : Char.ofNat (n / 4096 * 4096 + n / 64 % 64 * 64 + n % 64) = c := by
            rw [show n / 4096 * 4096 + n / 64 % 64 * 64 + n % 64 = c.toNat from by omega]
            exact Char.ofNat_toNat c
          simp [readPercentByte_percentByte (0x80 + (n / 64) % 64) (by omega),
            readPercentByte_percentByte (0x80 + n % 64) (by omega),
            show (0x80 ≤ 0x80 + (n / 64) % 64 ∧ 0x80 + (n / 64) % 64 < 0xc0) ∧
              (0x80 ≤ 0x80 + n % 64 ∧ 0x80 + n % 64 < 0xc0) ∧
              (0xe0 + n / 4096 ≠ 0xe0 ∨ 0xa0 ≤ 0x80 + (n / 64) % 64) ∧
              (0xe0 + n / 4096 ≠ 0xed ∨ 0x80 + (n / 64) % 64 < 0xa0) from by omega,
            show ¬n / 4096 = 0 ∨ 160 ≤ 128 + n / 64 % 64 from by omega, hscalar]
        · have hub : n < 0x110000 := by
            rcases hval with hv | hv
            · omega
            · omega
          rw [show utf8Bytes n =
              [0xf0 + n / 0x40000, 0x80 + (n / 4096) % 64, 0x80 + (n / 64) % 64,
               0x80 + n % 64] from by
            rw [utf8Bytes, if_neg h1, if_neg h2, if_neg h3]]
          simp only [List.flatMap_cons, List.flatMap_nil, List.append_nil,
            List.append_assoc]
          rw [show percentByte (0xf0 + n / 0x40000) ++
              (percentByte (0x80 + (n / 4096) % 64) ++ (percentByte (0x80 + (n / 64) % 64) ++
                (percentByte (0x80 + n % 64) ++ rest))) =
              '%' :: hexDigitUpper ((0xf0 + n / 0x40000) / 16) ::
                hexDigitUpper ((0xf0 + n / 0x40000) % 16) ::
                (percentByte (0x80 + (n / 4096) % 64) ++ (percentByte (0x80 + (n / 64) % 64) ++
                  (percentByte (0x80 + n % 64) ++ rest))) from rfl]
          rw [percentDecodeLoop]
          simp only [hexVal_hexDigitUpper ((0xf0 + n / 0x40000) / 16) (by omega),
            hexVal_hexDigitUpper ((0xf0 + n / 0x40000) % 16) (by omega)]
          rw [show 16 * ((0xf0 + n / 0x40000) / 16) + (0xf0 + n / 0x40000) % 16 =
              0xf0 + n / 0x40000 from by omega]
          rw [readUtf8Cont, if_neg (by omega), if_neg (by omega), if_neg (by omega),
            if_neg (by omega), if_pos (by omega)]
          have hscalar : Char.ofNat (n / 0x40000 * 0x40000 + n / 4096 % 64 * 4096 +
              n / 64 % 64 * 64 + n % 64) = c := by
            rw [show n / 0x40000 * 0x40000 + n / 4096 % 64 * 4096 +
                n / 64 % 64 * 64 + n % 64 = c.toNat from by omega]
            exact Char.ofNat_toNat c
          simp [readPercentByte_percentByte (0x80 + (n / 4096) % 64) (by omega),
            readPercentByte_percentByte (0x80 + (n / 64) % 64) (by omega),
            readPercentByte_percentByte (0x80 + n % 64) (by omega),
            show (0x80 ≤ 0x80 + (n / 4096) % 64 ∧ 0x80 + (n / 4096) % 64 < 0xc0) ∧
              (0x80 ≤ 0x80 + (n / 64) % 64 ∧ 0x80 + (n / 64) % 64 < 0xc0) ∧
              (0x80 ≤ 0x80 + n % 64 ∧ 0x80 + n % 64 < 0xc0) ∧
              (0xf0 + n / 0x40000 ≠ 0xf0 ∨ 0x90 ≤ 0x80 + (n / 4096) % 64) ∧
              (0xf0 + n / 0x40000 ≠ 0xf4 ∨ 0x80 + (n / 4096) % 64 < 0x90) from by omega,
            show ¬n / 262144 = 0 ∨ 144 ≤ 128 + n / 4096 % 64 from by omega,
            hscalar]

theorem encodeUriChar_length_pos (c : Char) : 0 < (encodeUriChar c).length := by
  unfold encodeUriChar
  split
  · simp
  · unfold utf8Bytes
    split
    · simp [percentByte]
    · split
      · simp [percentByte]
      · split
        · simp [percentByte]
        · simp [percentByte]

theorem length_le_flatMap_encodeUriChar (l : List Char) :
    l.length ≤ (l.flatMap encodeUriChar).length := by
  induction l with
  | nil => simp
  | cons c rest ih =>
    simp only [List.flatMap_cons, List.length_append, List.length_cons]
    have := encodeUriChar_length_pos c
    omega

theorem percentDecodeLoop_encode (l : List Char) (fuel : Nat) (h : l.length ≤ fuel) :
    percentDecodeLoop fuel (l.flatMap encodeUriChar) = some l := by
  induction l generalizing fuel with
  | nil => cases fuel <;> rfl
  | cons c rest ih =>
    cases fuel with
    | zero => simp at h
    | succ fuel =>
      rw [List.flatMap_cons, percentDecodeLoop_encodeUriChar,
        ih fuel (by simp at h; omega)]
      rfl

/-- `decodeURIComponent` inverts `encodeURIComponent`. -/
theorem decodeURIComponent_encodeURIComponent (s : String) :
    decodeURIComponent (encodeURIComponent s) = some s := by
  unfold decodeURIComponent encodeURIComponent
  rw [show (String.mk (s.data.flatMap encodeUriChar)).data = s.data.flatMap encodeUriChar
    from rfl]
  rw [percentDecodeLoop_encode s.data _ (length_le_flatMap_encodeUriChar s.data)]
  rfl

/-! ## Round trip of the JSON string escapes -/

theorem parseJsonStringBody_cons_plain (c : Char) (h1 : c ≠ '"') (h2 : c ≠ '\\')
    (h3 : ¬c.toNat < 0x20) (rest : List Char) :
    parseJsonStringBody (c :: rest) =
      (parseJsonStringBody rest).map fun p => (c :: p.1, p.2) := by
  rw [parseJsonStringBody.eq_def]
  split
  · simp_all
  · simp_all
  · simp_all
  · rename_i heq
    rw [if_neg (by simp_all)]
    rcases hp : parseJsonStringBody rest with _ | ⟨s, rem⟩ <;> simp_all

theorem parseJsonStringBody_escape (l : List Char) (rest : List Char) :
    parseJsonStringBody (l.flatMap jsonEscapeChar ++ '"' :: rest) = some (l, rest) := by
  induction l with
  | nil => rfl
  | cons c cs ih =>
    rw [List.flatMap_cons, List.append_assoc]
    by_cases e1 : c = '"'
    · subst e1
      simp [jsonEscapeChar, parseJsonStringBody, jsonUnescape, ih]
    · by_cases e2 : c = '\\'
      · subst e2
        simp [jsonEscapeChar, parseJsonStringBody, jsonUnescape, ih]
      · by_cases e3 : c = '\x08'
        · subst e3
          simp [jsonEscapeChar, parseJsonStringBody, jsonUnescape, ih]
        · by_cases e4 : c = '\t'
          · subst e4
            simp [jsonEscapeChar, parseJsonStringBody, jsonUnescape, ih]
          · by_cases e5 : c = '\n'
            · subst e5
              simp [jsonEscapeChar, parseJsonStringBody, jsonUnescape, ih]
            · by_cases e6 : c = '\x0c'
              · subst e6
                simp [jsonEscapeChar, parseJsonStringBody, jsonUnescape, ih]
              · by_cases e7 : c = '\r'
                · subst e7
                  simp [jsonEscapeChar, parseJsonStringBody, jsonUnescape, ih]
                · by_cases e8 : c.toNat < 0x20
                  · rw [show jsonEscapeChar c =
                        ['\\', 'u', '0', '0', hexDigitLower (c.toNat / 16),
                         hexDigitLower (c.toNat % 16)] from by
                      unfold jsonEscapeChar
                      rw [if_neg e1, if_neg e2, if_neg e3, if_neg e4, if_neg e5,
                        if_neg e6, if_neg e7, if_pos e8]]
                    rw [show (['\\', 'u', '0', '0', hexDigitLower (c.toNat / 16),
                         hexDigitLower (c.toNat % 16)] : List Char) ++
                        (cs.flatMap jsonEscapeChar ++ '"' :: rest) =
                        '\\' :: 'u' :: '0' :: '0' :: hexDigitLower (c.toNat / 16) ::
                          hexDigitLower (c.toNat % 16) ::
                          (cs.flatMap jsonEscapeChar ++ '"' :: rest) from rfl]
                    rw [parseJsonStringBody]
                    simp only [show hexVal '0' = some 0 from rfl,
                      hexVal_hexDigitLower (c.toNat / 16) (by omega),
                      hexVal_hexDigitLower (c.toNat % 16) (by omega)]
                    rw [ih]
                    simp [show c.toNat / 16 * 16 + c.toNat % 16 = c.toNat from by omega]
                  · rw [show jsonEscapeChar c = [c] from by
                      unfold jsonEscapeChar
                      rw [if_neg e1, if_neg e2, if_neg e3, if_neg e4, if_neg e5,
                        if_neg e6, if_neg e7, if_neg e8]]
                    rw [show ([c] : List Char) ++ (cs.flatMap jsonEscapeChar ++ '"' :: rest) =
                        c :: (cs.flatMap jsonEscapeChar ++ '"' :: rest) from rfl]
                    rw [parseJsonStringBody_cons_plain c e1 e2 e8, ih]
                    rfl

/-! ## The parser re-reads what stringify wrote (todo-shaped documents) -/

theorem quote_append (k : String) (X : List Char) :
    quoteJsonString k ++ X = '"' :: (k.data.flatMap jsonEscapeChar ++ '"' :: X) := by
  simp [quoteJsonString, List.append_assoc]

theorem parseJsonValue_str (s : String) (rest : List Char) (fuel : Nat) :
    parseJsonValue (fuel + 1) (quoteJsonString s ++ rest) = some (.str s, rest) := by
  rw [quote_append]
  rw [parseJsonValue]
  rw [parseJsonStringBody_escape]

theorem parseJsonValue_bool (b : Bool) (rest : List Char) (fuel : Nat) :
    parseJsonValue (fuel + 1) (stringifyJson (.bool b) ++ rest) = some (.bool b, rest) := by
  cases b <;> rfl

/-- The two value shapes a persisted todo field can have. -/
def TodoFieldValue (j : Json) : Prop := (∃ s, j = .str s) ∨ ∃ b, j = .bool b

theorem parseJsonValue_atom (j : Json) (h : TodoFieldValue j) (rest : List Char)
    (fuel : Nat) :
    parseJsonValue (fuel + 1) (stringifyJson j ++ rest) = some (j, rest) := by
  rcases h with ⟨s, rfl⟩ | ⟨b, rfl⟩
  · exact parseJsonValue_str s rest fuel
  · exact parseJsonValue_bool b rest fuel

theorem skipJsonWs_atom (j : Json) (h : TodoFieldValue j) (z : List Char) :
    skipJsonWs (stringifyJson j ++ z) = stringifyJson j ++ z := by
  rcases h with ⟨s, rfl⟩ | ⟨b, rfl⟩
  · rfl
  · cases b <;> rfl

theorem parseJsonMembers_atoms (ms : List (String × Json)) (rest : List Char)
    (fuel : Nat) (hne : ms ≠ []) (hatoms : ∀ m ∈ ms, TodoFieldValue m.2)
    (hfuel : ms.length + 1 ≤ fuel) :
    parseJsonMembers fuel (stringifyMembers ms ++ '\x7d' :: rest) = some (ms, rest) := by
  induction ms generalizing fuel with
  | nil => exact absurd rfl hne
  | cons m tail ih =>
    obtain ⟨k, v⟩ := m
    have hv : TodoFieldValue v := hatoms (k, v) (List.mem_cons_self _ _)
    cases fuel with
    | zero => simp at hfuel
    | succ fuel =>
      obtain ⟨fuel, rfl⟩ : ∃ f, fuel = f + 1 := by
        cases tail <;> simp [List.length_cons] at hfuel <;> exact ⟨fuel - 1, by omega⟩
      cases tail with
      | nil =>
        rw [show stringifyMembers [(k, v)] = quoteJsonString k ++ ':' :: stringifyJson v
          from rfl]
        rw [show (quoteJsonString k ++ ':' :: stringifyJson v) ++ '\x7d' :: rest =
            quoteJsonString k ++ ':' :: (stringifyJson v ++ '\x7d' :: rest) from by
          simp [List.append_assoc]]
        rw [quote_append, parseJsonMembers, parseJsonStringBody_escape]
        simp only [show skipJsonWs (':' :: (stringifyJson v ++ '\x7d' :: rest)) =
            ':' :: (stringifyJson v ++ '\x7d' :: rest) from rfl,
          skipJsonWs_atom v hv, parseJsonValue_atom v hv,
          show skipJsonWs ('\x7d' :: rest) = '\x7d' :: rest from rfl]
      | cons m2 tail2 =>
        have hsk : skipJsonWs (stringifyMembers (m2 :: tail2) ++ '\x7d' :: rest) =
            stringifyMembers (m2 :: tail2) ++ '\x7d' :: rest := by
          obtain ⟨k2, v2⟩ := m2
          cases tail2 with
          | nil =>
            rw [show stringifyMembers [(k2, v2)] =
                quoteJsonString k2 ++ ':' :: stringifyJson v2 from rfl]
            rw [show (quoteJsonString k2 ++ ':' :: stringifyJson v2) ++ '\x7d' :: rest =
                quoteJsonString k2 ++ ':' :: (stringifyJson v2 ++ '\x7d' :: rest) from by
              simp [List.append_assoc]]
            rw [quote_append]
            rfl
          | cons m3 tail3 =>
            rw [show stringifyMembers ((k2, v2) :: m3 :: tail3) =
                quoteJsonString k2 ++ ':' :: stringifyJson v2 ++
                  ',' :: stringifyMembers (m3 :: tail3) from rfl]
            rw [show (quoteJsonString k2 ++ ':' :: stringifyJson v2 ++
                  ',' :: stringifyMembers (m3 :: tail3)) ++ '\x7d' :: rest =
                quoteJsonString k2 ++ ':' :: (stringifyJson v2 ++
                  ',' :: (stringifyMembers (m3 :: tail3) ++ '\x7d' :: rest)) from by
              simp [List.append_assoc]]
            rw [quote_append]
            rfl
        have ihe : parseJsonMembers (fuel + 1)
            (stringifyMembers (m2 :: tail2) ++ '\x7d' :: rest) =
            some (m2 :: tail2, rest) :=
          ih (fuel + 1) (List.cons_ne_nil _ _)
            (fun x hx => hatoms x (List.mem_cons_of_mem _ hx))
            (by simp at hfuel ⊢; omega)
        rw [show stringifyMembers ((k, v) :: m2 :: tail2) =
            quoteJsonString k ++ ':' :: stringifyJson v ++
              ',' :: stringifyMembers (m2 :: tail2) from rfl]
        rw [show (quoteJsonString k ++ ':' :: stringifyJson v ++
              ',' :: stringifyMembers (m2 :: tail2)) ++ '\x7d' :: rest =
            quoteJsonString k ++ ':' :: (stringifyJson v ++
              ',' :: (stringifyMembers (m2 :: tail2) ++ '\x7d' :: rest)) from by
          simp [List.append_assoc]]
        rw [quote_append, parseJsonMembers, parseJsonStringBody_escape]
        simp only [show skipJsonWs (':' :: (stringifyJson v ++
            ',' :: (stringifyMembers (m2 :: tail2) ++ '\x7d' :: rest))) =
            ':' :: (stringifyJson v ++
            ',' :: (stringifyMembers (m2 :: tail2) ++ '\x7d' :: rest)) from rfl,
          skipJsonWs_atom v hv, parseJsonValue_atom v hv,
          show skipJsonWs (',' :: (stringifyMembers (m2 :: tail2) ++ '\x7d' :: rest)) =
            ',' :: (stringifyMembers (m2 :: tail2) ++ '\x7d' :: rest) from rfl,
          hsk, ihe]

theorem parseJsonValue_obj_atoms (ms : List (String × Json)) (rest : List Char)
    (fuel : Nat) (hne : ms ≠ []) (hatoms : ∀ m ∈ ms, TodoFieldValue m.2)
    (hfuel : ms.length + 2 ≤ fuel) :
    parseJsonValue fuel (stringifyJson (.obj ms) ++ rest) =
      some (.obj (ms.foldl (fun acc p => objSetField acc p.1 p.2) []), rest) := by
  cases ms with
  | nil => exact absurd rfl hne
  | cons m tail =>
    obtain ⟨k, v⟩ := m
    obtain ⟨f, rfl⟩ : ∃ f, fuel = f + 1 := ⟨fuel - 1, by omega⟩
    obtain ⟨Z, hZ⟩ : ∃ Z, stringifyMembers ((k, v) :: tail) =
        quoteJsonString k ++ ':' :: Z := by
      cases tail with
      | nil => exact ⟨stringifyJson v, rfl⟩
      | cons m2 tail2 =>
        refine ⟨stringifyJson v ++ ',' :: stringifyMembers (m2 :: tail2), ?_⟩
        rw [show stringifyMembers ((k, v) :: m2 :: tail2) =
            quoteJsonString k ++ ':' :: stringifyJson v ++
              ',' :: stringifyMembers (m2 :: tail2) from rfl]
        simp [List.append_assoc]
    have hPM := parseJsonMembers_atoms ((k, v) :: tail) rest f
      (List.cons_ne_nil _ _) hatoms (by simp at hfuel ⊢; omega)
    rw [hZ] at hPM
    rw [show (quoteJsonString k ++ ':' :: Z) ++ '\x7d' :: rest =
        quoteJsonString k ++ ':' :: (Z ++ '\x7d' :: rest) from by
      simp [List.append_assoc]] at hPM
    rw [quote_append] at hPM
    rw [show stringifyJson (.obj ((k, v) :: tail)) =
        '\x7b' :: (stringifyMembers ((k, v) :: tail) ++ ['\x7d']) from rfl]
    rw [show ('\x7b' :: (stringifyMembers ((k, v) :: tail) ++ ['\x7d'])) ++ rest =
        '\x7b' :: (stringifyMembers ((k, v) :: tail) ++ '\x7d' :: rest) from by
      simp [List.append_assoc]]
    rw [hZ]
    rw [show (quoteJsonString k ++ ':' :: Z) ++ '\x7d' :: rest =
        quoteJsonString k ++ ':' :: (Z ++ '\x7d' :: rest) from by
      simp [List.append_assoc]]
    rw [quote_append]
    rw [parseJsonValue]
    simp only [show skipJsonWs ('"' :: (k.data.flatMap jsonEscapeChar ++ '"' ::
        (':' :: (Z ++ '\x7d' :: rest)))) = '"' :: (k.data.flatMap jsonEscapeChar ++ '"' ::
        (':' :: (Z ++ '\x7d' :: rest))) from rfl]
    simp [hPM]

theorem todoToJson_eq (t : Todo) :
    todoToJson t =
      .obj [("id", .str t.id), ("title", .str t.title),
            ("completed", .bool t.completed), ("createdAt", .str t.createdAt)] := rfl

theorem todoToJson_atoms (t : Todo) :
    ∀ m ∈ [(("id" : String), Json.str t.id), ("title", Json.str t.title),
           ("completed", Json.bool t.completed), ("createdAt", Json.str t.createdAt)],
      TodoFieldValue m.2 := by
  intro m hm
  simp only [List.mem_cons, List.not_mem_nil, or_false] at hm
  rcases hm with rfl | rfl | rfl | rfl
  · exact Or.inl ⟨t.id, rfl⟩
  · exact Or.inl ⟨t.title, rfl⟩
  · exact Or.inr ⟨t.completed, rfl⟩
  · exact Or.inl ⟨t.createdAt, rfl⟩

theorem todoToJson_foldl (t : Todo) :
    ([(("id" : String), Json.str t.id), ("title", Json.str t.title),
      ("completed", Json.bool t.completed), ("createdAt", Json.str t.createdAt)].foldl
        (fun acc p => objSetField acc p.1 p.2) []) =
      [(("id" : String), Json.str t.id), ("title", Json.str t.title),
       ("completed", Json.bool t.completed), ("createdAt", Json.str t.createdAt)] := rfl

theorem parseJsonValue_todoJson (t : Todo) (rest : List Char) (fuel : Nat)
    (h : 6 ≤ fuel) :
    parseJsonValue fuel (stringifyJson (todoToJson t) ++ rest) =
      some (todoToJson t, rest) := by
  rw [todoToJson_eq]
  rw [parseJsonValue_obj_atoms _ rest fuel (List.cons_ne_nil _ _) (todoToJson_atoms t)
    (by simp; omega)]
  rw [todoToJson_foldl]

theorem stringifyJson_todo_length (t : Todo) :
    4 ≤ (stringifyJson (todoToJson t)).length := by
  rw [show stringifyJson (todoToJson t) =
      '\x7b' :: (stringifyMembers
        [(("id" : String), Json.str t.id), ("title", Json.str t.title),
         ("completed", Json.bool t.completed), ("createdAt", Json.str t.createdAt)] ++
        ['\x7d']) from rfl]
  have h2 : 2 ≤ (stringifyMembers
      [(("id" : String), Json.str t.id), ("title", Json.str t.title),
       ("completed", Json.bool t.completed), ("createdAt", Json.str t.createdAt)]).length := by
    rw [stringifyMembers]
    simp [quoteJsonString]
    have hi : (jsonEscapeChar 'i').length = 1 := rfl
    omega
  simp only [List.length_cons, List.length_append]
  omega

theorem stringifyElems_todos_head (t2 : Todo) (tail2 : List Todo) :
    ∃ W, stringifyElems ((t2 :: tail2).map todoToJson) = '\x7b' :: W := by
  cases tail2 with
  | nil =>
    exact ⟨stringifyMembers
      [(("id" : String), Json.str t2.id), ("title", Json.str t2.title),
       ("completed", Json.bool t2.completed), ("createdAt", Json.str t2.createdAt)] ++
      ['\x7d'], rfl⟩
  | cons t3 tail3 =>
    refine ⟨stringifyMembers
      [(("id" : String), Json.str t2.id), ("title", Json.str t2.title),
       ("completed", Json.bool t2.completed), ("createdAt", Json.str t2.createdAt)] ++
      ['\x7d'] ++ ',' :: stringifyElems ((t3 :: tail3).map todoToJson), ?_⟩
    rw [show stringifyElems ((t2 :: t3 :: tail3).map todoToJson) =
        stringifyJson (todoToJson t2) ++
          ',' :: stringifyElems ((t3 :: tail3).map todoToJson) from by
      rw [List.map_cons, List.map_cons, stringifyElems]]
    rw [show stringifyJson (todoToJson t2) =
        '\x7b' :: (stringifyMembers
          [(("id" : String), Json.str t2.id), ("title", Json.str t2.title),
           ("completed", Json.bool t2.completed), ("createdAt", Json.str t2.createdAt)] ++
          ['\x7d']) from rfl]
    simp [List.append_assoc]

theorem parseJsonElems_todos (ts : List Todo) (rest : List Char) (fuel : Nat)
    (hne : ts ≠ []) (hfuel : ts.length + 6 ≤ fuel) :
    parseJsonElems fuel (stringifyElems (ts.map todoToJson) ++ ']' :: rest) =
      some (ts.map todoToJson, rest) := by
  induction ts generalizing fuel with
  | nil => exact absurd rfl hne
  | cons t tail ih =>
    obtain ⟨fuel, rfl⟩ : ∃ f, fuel = f + 1 := ⟨fuel - 1, by omega⟩
    cases tail with
    | nil =>
      rw [show stringifyElems ([t].map todoToJson) = stringifyJson (todoToJson t)
        from rfl]
      rw [parseJsonElems]
      rw [parseJsonValue_todoJson t _ fuel (by simp at hfuel; omega)]
      simp [show skipJsonWs (']' :: rest) = ']' :: rest from rfl]
    | cons t2 tail2 =>
      rw [show stringifyElems ((t :: t2 :: tail2).map todoToJson) =
          stringifyJson (todoToJson t) ++
            ',' :: stringifyElems ((t2 :: tail2).map todoToJson) from by
        rw [List.map_cons, List.map_cons, stringifyElems]]
      rw [show (stringifyJson (todoToJson t) ++
            ',' :: stringifyElems ((t2 :: tail2).map todoToJson)) ++ ']' :: rest =
          stringifyJson (todoToJson t) ++
            ',' :: (stringifyElems ((t2 :: tail2).map todoToJson) ++ ']' :: rest) from by
        simp [List.append_assoc]]
      rw [parseJsonElems]
      rw [parseJsonValue_todoJson t _ fuel (by simp at hfuel; omega)]
      obtain ⟨W, hW⟩ := stringifyElems_todos_head t2 tail2
      have hsk : skipJsonWs (stringifyElems ((t2 :: tail2).map todoToJson) ++ ']' :: rest) =
          stringifyElems ((t2 :: tail2).map todoToJson) ++ ']' :: rest := by
        rw [hW]
        rfl
      have ihe := ih fuel (List.cons_ne_nil _ _) (by simp at hfuel ⊢; omega)
      simp only [show skipJsonWs (',' ::
          (stringifyElems ((t2 :: tail2).map todoToJson) ++ ']' :: rest)) =
          ',' :: (stringifyElems ((t2 :: tail2).map todoToJson) ++ ']' :: rest) from rfl,
        hsk, ihe]
      simp

theorem stringifyElems_todos_length (ts : List Todo) (hne : ts ≠ []) :
    ts.length + 3 ≤ (stringifyElems (ts.map todoToJson)).length := by
  induction ts with
  | nil => exact absurd rfl hne
  | cons t tail ih =>
    cases tail with
    | nil =>
      rw [show stringifyElems ([t].map todoToJson) = stringifyJson (todoToJson t)
        from rfl]
      have := stringifyJson_todo_length t
      simp
      omega
    | cons t2 tail2 =>
      rw [show stringifyElems ((t :: t2 :: tail2).map todoToJson) =
          stringifyJson (todoToJson t) ++
            ',' :: stringifyElems ((t2 :: tail2).map todoToJson) from by
        rw [List.map_cons, List.map_cons, stringifyElems]]
      have h1 := stringifyJson_todo_length t
      have h2 := ih (List.cons_ne_nil _ _)
      simp only [List.length_append, List.length_cons] at h2 ⊢
      omega

/-- `JSON.parse` re-reads what `JSON.stringify` wrote for a todo list. -/
theorem jsonParse_stringifyTodos (ts : List Todo) :
    jsonParse ⟨stringifyJson (.arr (ts.map todoToJson))⟩ =
      some (.arr (ts.map todoToJson)) := by
  cases ts with
  | nil => rfl
  | cons t tail =>
    unfold jsonParse
    rw [show (String.mk (stringifyJson (.arr ((t :: tail).map todoToJson)))).data =
        stringifyJson (.arr ((t :: tail).map todoToJson)) from rfl]
    rw [show (String.mk (stringifyJson (.arr ((t :: tail).map todoToJson)))).length =
        (stringifyJson (.arr ((t :: tail).map todoToJson))).length from rfl]
    rw [show stringifyJson (.arr ((t :: tail).map todoToJson)) =
        '[' :: (stringifyElems ((t :: tail).map todoToJson) ++ [']']) from rfl]
    rw [show skipJsonWs ('[' :: (stringifyElems ((t :: tail).map todoToJson) ++ [']'])) =
        '[' :: (stringifyElems ((t :: tail).map todoToJson) ++ [']']) from rfl]
    have hlen := stringifyElems_todos_length (t :: tail) (List.cons_ne_nil _ _)
    obtain ⟨f, hf⟩ : ∃ f,
        ('[' :: (stringifyElems ((t :: tail).map todoToJson) ++ [']'])).length + 2 =
          f + 1 :=
      ⟨('[' :: (stringifyElems ((t :: tail).map todoToJson) ++ [']'])).length + 1, rfl⟩
    rw [hf, parseJsonValue]
    obtain ⟨W, hW⟩ := stringifyElems_todos_head t tail
    have hel := parseJsonElems_todos (t :: tail) [] f (List.cons_ne_nil _ _) (by
      simp only [List.length_cons, List.length_append, List.length_nil] at hf hlen ⊢
      omega)
    have hsk : skipJsonWs (stringifyElems ((t :: tail).map todoToJson) ++ [']']) =
        stringifyElems ((t :: tail).map todoToJson) ++ [']'] := by
      rw [hW]
      rfl
    rw [hsk, hW]
    rw [hW] at hel
    simp only [List.cons_append] at hel ⊢
    simp [hel]
    rfl

/-! ## The cookie round trip -/

theorem hexDigitUpper_ne (k : Nat) (hk : k < 16) :
    hexDigitUpper k ≠ ';' ∧ hexDigitUpper k ≠ '=' := by
  interval_cases k <;> exact ⟨by decide, by decide⟩

theorem utf8Bytes_lt (c : Char) : ∀ b ∈ utf8Bytes c.toNat, b < 256 := by
  intro b hb
  have hval : c.toNat < 0xd800 ∨ (0xdfff < c.toNat ∧ c.toNat < 0x110000) := c.valid
  unfold utf8Bytes at hb
  split at hb
  · simp only [List.mem_singleton] at hb
    omega
  · split at hb
    · simp only [List.mem_cons, List.not_mem_nil, or_false] at hb
      rcases hb with rfl | rfl <;> omega
    · split at hb
      · simp only [List.mem_cons, List.not_mem_nil, or_false] at hb
        rcases hb with rfl | rfl | rfl <;> omega
      · simp only [List.mem_cons, List.not_mem_nil, or_false] at hb
        rcases hb with rfl | rfl | rfl | rfl <;> omega

theorem encodeUriChar_chars (c : Char) :
    ∀ x ∈ encodeUriChar c, x ≠ ';' ∧ x ≠ '=' := by
  intro x hx
  unfold encodeUriChar at hx
  split at hx
  · rename_i hu
    rcases List.mem_singleton.1 hx with rfl
    constructor <;> intro he <;> rw [he] at hu <;> exact absurd hu (by decide)
  · obtain ⟨b, hb, hxb⟩ := List.mem_flatMap.1 hx
    have hblt := utf8Bytes_lt c b hb
    unfold percentByte at hxb
    simp only [List.mem_cons, List.not_mem_nil, or_false] at hxb
    rcases hxb with rfl | rfl | rfl
    · exact ⟨by decide, by decide⟩
    · exact hexDigitUpper_ne _ (by omega)
    · exact hexDigitUpper_ne _ (by omega)

theorem encodeURIComponent_chars (s : String) :
    ∀ x ∈ (encodeURIComponent s).data, x ≠ ';' ∧ x ≠ '=' := by
  intro x hx
  rw [show (encodeURIComponent s).data = s.data.flatMap encodeUriChar from rfl] at hx
  obtain ⟨c, _, hxc⟩ := List.mem_flatMap.1 hx
  exact encodeUriChar_chars c x hxc

theorem takeWhile_append_cons_false (p : Char → Bool) (a : List Char) (c : Char)
    (z : List Char) (ha : ∀ x ∈ a, p x = true) (hc : p c = false) :
    ((a ++ c :: z).takeWhile p) = a := by
  induction a with
  | nil => simp [List.takeWhile_cons, hc]
  | cons y a' ih =>
    rw [List.cons_append, List.takeWhile_cons, ha y (List.mem_cons_self _ _)]
    simp only [ih fun x hx => ha x (List.mem_cons_of_mem _ hx)]
    simp

theorem dropWhile_append_cons_false (p : Char → Bool) (a : List Char) (c : Char)
    (z : List Char) (ha : ∀ x ∈ a, p x = true) (hc : p c = false) :
    ((a ++ c :: z).dropWhile p) = c :: z := by
  induction a with
  | nil => simp [List.dropWhile_cons, hc]
  | cons y a' ih =>
    rw [List.cons_append, List.dropWhile_cons, ha y (List.mem_cons_self _ _)]
    exact ih fun x hx => ha x (List.mem_cons_of_mem _ hx)

theorem splitOnSemiSpace_no_semi (cs : List Char) (h : ∀ x ∈ cs, x ≠ ';') :
    splitOnSemiSpace cs = [cs] := by
  induction cs with
  | nil => rfl
  | cons c rest ih =>
    rw [splitOnSemiSpace.eq_def]
    split
    · simp_all
    · rename_i heq
      injection heq with h1 h2
      exact absurd h1 (h c (List.mem_cons_self _ _))
    · rename_i heq
      injection heq with h1 h2
      subst h1
      subst h2
      rw [ih fun x hx => h x (List.mem_cons_of_mem _ hx)]

theorem splitOnSemiSpace_append (s z : List Char) (h : ∀ x ∈ s, x ≠ ';') :
    splitOnSemiSpace (s ++ ';' :: ' ' :: z) = s :: splitOnSemiSpace z := by
  induction s with
  | nil => rw [List.nil_append, splitOnSemiSpace]
  | cons c s' ih =>
    rw [List.cons_append, splitOnSemiSpace.eq_def]
    split
    · simp_all
    · rename_i heq
      injection heq with h1 h2
      exact absurd h1 (h c (List.mem_cons_self _ _))
    · rename_i heq
      injection heq with h1 h2
      subst h1
      subst h2
      rw [ih fun x hx => h x (List.mem_cons_of_mem _ hx)]

theorem splitOnSemiSpace_joinSemiSpace (parts : List (List Char)) (hne : parts ≠ [])
    (h : ∀ p ∈ parts, ∀ x ∈ p, x ≠ ';') :
    splitOnSemiSpace (joinSemiSpace parts) = parts := by
  induction parts with
  | nil => exact absurd rfl hne
  | cons p tail ih =>
    cases tail with
    | nil => exact splitOnSemiSpace_no_semi p (h p (List.mem_cons_self _ _))
    | cons q r =>
      rw [joinSemiSpace, splitOnSemiSpace_append p _ (h p (List.mem_cons_self _ _))]
      rw [ih (List.cons_ne_nil _ _) fun x hx => h x (List.mem_cons_of_mem _ hx)]

theorem splitOnEq_ne_nil (cs : List Char) : splitOnEq cs ≠ [] := by
  induction cs with
  | nil => simp [splitOnEq]
  | cons c rest ih =>
    rw [splitOnEq.eq_def]
    split
    · simp_all
    · simp
    · rename_i heq
      injection heq with h1 h2
      subst h1
      subst h2
      rcases hs : splitOnEq rest with _ | ⟨s, ss⟩
      · exact absurd hs ih
      · simp

theorem splitOnEq_no_eq (cs : List Char) (h : ∀ x ∈ cs, x ≠ '=') :
    splitOnEq cs = [cs] := by
  induction cs with
  | nil => rfl
  | cons c rest ih =>
    rw [splitOnEq.eq_def]
    split
    · simp_all
    · rename_i heq
      injection heq with h1 h2
      exact absurd h1 (h c (List.mem_cons_self _ _))
    · rename_i heq
      injection heq with h1 h2
      subst h1
      subst h2
      rw [ih fun x hx => h x (List.mem_cons_of_mem _ hx)]

theorem splitOnEq_append (a b : List Char) (ha : ∀ x ∈ a, x ≠ '=') :
    splitOnEq (a ++ '=' :: b) = a :: splitOnEq b := by
  induction a with
  | nil => rw [List.nil_append, splitOnEq]
  | cons c a' ih =>
    rw [List.cons_append, splitOnEq.eq_def]
    split
    · simp_all
    · rename_i heq
      injection heq with h1 h2
      exact absurd h1 (ha c (List.mem_cons_self _ _))
    · rename_i heq
      injection heq with h1 h2
      subst h1
      subst h2
      rw [ih fun x hx => ha x (List.mem_cons_of_mem _ hx)]

theorem joinWithChar_cons (sep c : Char) (s : List Char) (ss : List (List Char)) :
    joinWithChar sep ((c :: s) :: ss) = c :: joinWithChar sep (s :: ss) := by
  cases ss <;> rfl

theorem joinWithChar_splitOnEq (cs : List Char) :
    joinWithChar '=' (splitOnEq cs) = cs := by
  induction cs with
  | nil => rfl
  | cons c rest ih =>
    rw [splitOnEq.eq_def]
    split
    · simp_all
    · rename_i heq
      injection heq with h1 h2
      subst h1
      subst h2
      rcases hs : splitOnEq rest with _ | ⟨s, ss⟩
      · exact absurd hs (splitOnEq_ne_nil rest)
      · rw [joinWithChar]
        rw [hs] at ih
        rw [ih]
        rfl
    · rename_i heq
      injection heq with h1 h2
      subst h1
      subst h2
      rcases hs : splitOnEq rest with _ | ⟨s, ss⟩
      · exact absurd hs (splitOnEq_ne_nil rest)
      · show joinWithChar '=' ((c :: s) :: ss) = c :: rest
        rw [joinWithChar_cons]
        rw [hs] at ih
        rw [ih]

/-- Jar entries as the browser itself creates them: keys without `;` or `=`,
values without `;`. -/
def jarOk (jar : CookieJar) : Bool :=
  jar.all fun p =>
    (p.1.data.all fun c => c != ';' && c != '=') && (p.2.data.all fun c => c != ';')

theorem jarOk_cons {k v : String} {jar : CookieJar} (h : jarOk ((k, v) :: jar) = true) :
    (∀ x ∈ k.data, x ≠ ';' ∧ x ≠ '=') ∧ (∀ x ∈ v.data, x ≠ ';') ∧ jarOk jar = true := by
  simp only [jarOk, List.all_cons, Bool.and_eq_true, List.all_eq_true, bne_iff_ne,
    ne_eq] at h ⊢
  exact ⟨fun x hx => ⟨(h.1.1 x hx).1, (h.1.1 x hx).2⟩, fun x hx => h.1.2 x hx, h.2⟩

theorem getCookieLoop_skip (name : String) (jar : CookieJar)
    (hk : ∀ p ∈ jar, p.1 ≠ name ∧ ∀ x ∈ p.1.data, x ≠ '=')
    (tailparts : List (List Char)) :
    getCookieLoop name (cookieEntries jar ++ tailparts) = getCookieLoop name tailparts := by
  induction jar with
  | nil => rfl
  | cons p rest ih =>
    obtain ⟨k, v⟩ := p
    have hkp := hk (k, v) (List.mem_cons_self _ _)
    rw [show cookieEntries ((k, v) :: rest) =
        (k.data ++ '=' :: v.data) :: cookieEntries rest from rfl]
    rw [List.cons_append, getCookieLoop]
    rw [splitOnEq_append k.data v.data hkp.2]
    simp only [show (⟨k.data⟩ : String) = k from rfl]
    rw [if_neg hkp.1]
    exact ih fun p hp => hk p (List.mem_cons_of_mem _ hp)

theorem getCookieLoop_hit (value : String) (tailparts : List (List Char)) :
    getCookieLoop COOKIE_NAME
        ((COOKIE_NAME.data ++ '=' :: (encodeURIComponent value).data) :: tailparts) =
      .ok (some value) := by
  rw [getCookieLoop]
  rw [splitOnEq_append COOKIE_NAME.data _ (by decide)]
  simp only [show (⟨COOKIE_NAME.data⟩ : String) = COOKIE_NAME from rfl,
    eq_self_iff_true, if_true]
  rw [splitOnEq_no_eq _ fun x hx => (encodeURIComponent_chars value x hx).2]
  rw [show joinWithChar '=' [(encodeURIComponent value).data] =
      (encodeURIComponent value).data from rfl]
  rw [show (encodeURIComponent value).data = value.data.flatMap encodeUriChar from rfl]
  rw [percentDecodeLoop_encode value.data _ (length_le_flatMap_encodeUriChar value.data)]

theorem cookieNameChars : ∀ x ∈ COOKIE_NAME.data, x ≠ ';' ∧ x ≠ '=' := by decide

theorem setCookie_eq (value : String) (days : Nat) (jar : CookieJar) :
    setCookie COOKIE_NAME value days jar =
      (if jar.any fun p => p.1 = COOKIE_NAME then
        jar.map fun p =>
          if p.1 = COOKIE_NAME then (COOKIE_NAME, encodeURIComponent value) else p
      else jar ++ [(COOKIE_NAME, encodeURIComponent value)]) := by
  have hdata : (COOKIE_NAME ++ "=" ++ encodeURIComponent value ++ ";expires=" ++
      toString days ++ " days from now;path=/").data =
      (COOKIE_NAME.data ++ '=' :: (encodeURIComponent value).data) ++
        ';' :: ("expires=" ++ toString days ++ " days from now;path=/").data := by
    simp [List.append_assoc]
  have hall : ∀ x ∈ COOKIE_NAME.data ++ '=' :: (encodeURIComponent value).data,
      (decide ¬x = ';') = true := by
    intro x hx
    simp only [decide_eq_true_eq]
    rcases List.mem_append.1 hx with hx | hx
    · exact (cookieNameChars x hx).1
    · rcases List.mem_cons.1 hx with rfl | hx
      · decide
      · exact (encodeURIComponent_chars value x hx).1
  have hnameall : ∀ x ∈ COOKIE_NAME.data, (decide ¬x = '=') = true := by
    intro x hx
    simp only [decide_eq_true_eq]
    exact (cookieNameChars x hx).2
  unfold setCookie documentCookieSet
  dsimp only
  rw [hdata]
  rw [takeWhile_append_cons_false _ _ _ _ hall (by decide)]
  rw [takeWhile_append_cons_false _ _ _ _ hnameall (by decide)]
  rw [dropWhile_append_cons_false _ _ _ _ hnameall (by decide)]
  simp only [show ({ data := List.drop 1 ('=' :: (encodeURIComponent value).data) } : String) =
      encodeURIComponent value from rfl,
    show ({ data := COOKIE_NAME.data } : String) = COOKIE_NAME from rfl]

theorem jarOkEntry (value : String) :
    ((COOKIE_NAME.data.all fun c => c != ';' && c != '=') &&
      ((encodeURIComponent value).data.all fun c => c != ';')) = true := by
  rw [Bool.and_eq_true]
  constructor
  · decide
  · rw [List.all_eq_true]
    intro x hx
    simp only [bne_iff_ne, ne_eq]
    exact (encodeURIComponent_chars value x hx).1

theorem jarOk_append_entry (value : String) (jar : CookieJar) (h : jarOk jar = true) :
    jarOk (jar ++ [(COOKIE_NAME, encodeURIComponent value)]) = true := by
  simp only [jarOk, List.all_append, Bool.and_eq_true] at h ⊢
  exact ⟨h, by simpa using jarOkEntry value⟩

theorem jarOk_update_entry (value : String) (jar : CookieJar) (h : jarOk jar = true) :
    jarOk (jar.map fun p =>
      if p.1 = COOKIE_NAME then (COOKIE_NAME, encodeURIComponent value) else p) = true := by
  simp only [jarOk, List.all_eq_true] at h ⊢
  intro p hp
  obtain ⟨q, hq, rfl⟩ := List.mem_map.1 hp
  by_cases hqn : q.1 = COOKIE_NAME
  · rw [if_pos hqn]
    simpa using jarOkEntry value
  · rw [if_neg hqn]
    exact h q hq

theorem cookieEntries_no_semi (jar : CookieJar) (h : jarOk jar = true) :
    ∀ p ∈ cookieEntries jar, ∀ x ∈ p, x ≠ ';' := by
  intro p hp x hx
  obtain ⟨⟨k, v⟩, hkv, rfl⟩ := List.mem_map.1 hp
  simp only [jarOk, List.all_eq_true] at h
  have hkv2 := h (k, v) hkv
  simp only [Bool.and_eq_true, List.all_eq_true, bne_iff_ne, ne_eq] at hkv2
  rcases List.mem_append.1 hx with hx | hx
  · exact (hkv2.1 x hx).1
  · rcases List.mem_cons.1 hx with rfl | hx
    · decide
    · exact hkv2.2 x hx

theorem cookieEntries_ne_nil_parts (jar : CookieJar) :
    ∀ p ∈ cookieEntries jar, p ≠ [] := by
  intro p hp
  obtain ⟨⟨k, v⟩, _, rfl⟩ := List.mem_map.1 hp
  simp

theorem joinSemiSpace_ne_nil (parts : List (List Char)) (hne : parts ≠ [])
    (hp : ∀ p ∈ parts, p ≠ []) : joinSemiSpace parts ≠ [] := by
  cases parts with
  | nil => exact absurd rfl hne
  | cons p tail =>
    cases tail with
    | nil => exact hp p (List.mem_cons_self _ _)
    | cons q r =>
      rw [joinSemiSpace]
      intro hcon
      rcases List.append_eq_nil.1 hcon with ⟨_, h2⟩
      exact List.cons_ne_nil _ _ h2

theorem getCookieLoop_update (value : String) (jar : CookieJar)
    (h : jarOk jar = true) (hany : (jar.any fun p => p.1 = COOKIE_NAME) = true) :
    getCookieLoop COOKIE_NAME (cookieEntries (jar.map fun p =>
      if p.1 = COOKIE_NAME then (COOKIE_NAME, encodeURIComponent value) else p)) =
      .ok (some value) := by
  induction jar with
  | nil => simp at hany
  | cons p rest ih =>
    obtain ⟨k, v⟩ := p
    obtain ⟨hkchars, hvchars, hrest⟩ := jarOk_cons h
    by_cases hk : k = COOKIE_NAME
    · subst hk
      rw [show ((COOKIE_NAME, v) :: rest).map (fun p =>
            if p.1 = COOKIE_NAME then (COOKIE_NAME, encodeURIComponent value) else p) =
          (COOKIE_NAME, encodeURIComponent value) ::
            rest.map (fun p =>
              if p.1 = COOKIE_NAME then (COOKIE_NAME, encodeURIComponent value) else p)
        from by rw [List.map_cons, if_pos rfl]]
      rw [show cookieEntries ((COOKIE_NAME, encodeURIComponent value) ::
            rest.map (fun p =>
              if p.1 = COOKIE_NAME then (COOKIE_NAME, encodeURIComponent value) else p)) =
          (COOKIE_NAME.data ++ '=' :: (encodeURIComponent value).data) ::
            cookieEntries (rest.map fun p =>
              if p.1 = COOKIE_NAME then (COOKIE_NAME, encodeURIComponent value) else p)
        from rfl]
      exact getCookieLoop_hit value _
    · rw [show ((k, v) :: rest).map (fun p =>
            if p.1 = COOKIE_NAME then (COOKIE_NAME, encodeURIComponent value) else p) =
          (k, v) :: rest.map (fun p =>
            if p.1 = COOKIE_NAME then (COOKIE_NAME, encodeURIComponent value) else p)
        from by rw [List.map_cons, if_neg hk]]
      rw [show cookieEntries ((k, v) :: rest.map _) =
          (k.data ++ '=' :: v.data) :: cookieEntries (rest.map fun p =>
            if p.1 = COOKIE_NAME then (COOKIE_NAME, encodeURIComponent value) else p)
        from rfl]
      rw [getCookieLoop]
      rw [splitOnEq_append k.data v.data fun x hx => (hkchars x hx).2]
      simp only [show (⟨k.data⟩ : String) = k from rfl]
      rw [if_neg hk]
      exact ih hrest (by simpa [hk] using hany)

/-- After `setCookie`, `getCookie` returns the value that was written. -/
theorem getCookie_setCookie (value : String) (days : Nat) (jar : CookieJar)
    (h : jarOk jar = true) :
    getCookie COOKIE_NAME (setCookie COOKIE_NAME value days jar) = .ok (some value) := by
  rw [setCookie_eq]
  by_cases hany : (jar.any fun p => p.1 = COOKIE_NAME) = true
  · rw [if_pos hany]
    set jar2 := jar.map fun p =>
      if p.1 = COOKIE_NAME then (COOKIE_NAME, encodeURIComponent value) else p with hjar2
    have hok2 : jarOk jar2 = true := jarOk_update_entry value jar h
    have hne2 : jar2 ≠ [] := by
      intro hcon
      rw [hjar2] at hcon
      rcases List.map_eq_nil_iff.1 hcon with rfl
      simp at hany
    unfold getCookie documentCookieGet
    dsimp only
    rw [if_neg (by
      intro hcon
      have : joinSemiSpace (cookieEntries jar2) = [] := congrArg String.data hcon
      exact joinSemiSpace_ne_nil (cookieEntries jar2)
        (by simpa [cookieEntries] using hne2)
        (cookieEntries_ne_nil_parts jar2) this)]
    rw [splitOnSemiSpace_joinSemiSpace (cookieEntries jar2)
      (by simpa [cookieEntries] using hne2) (cookieEntries_no_semi jar2 hok2)]
    exact getCookieLoop_update value jar h hany
  · rw [if_neg hany]
    set jar2 := jar ++ [(COOKIE_NAME, encodeURIComponent value)] with hjar2
    have hok2 : jarOk jar2 = true := jarOk_append_entry value jar h
    have hne2 : jar2 ≠ [] := by simp [hjar2]
    unfold getCookie documentCookieGet
    dsimp only
    rw [if_neg (by
      intro hcon
      have : joinSemiSpace (cookieEntries jar2) = [] := congrArg String.data hcon
      exact joinSemiSpace_ne_nil (cookieEntries jar2)
        (by simpa [cookieEntries] using hne2)
        (cookieEntries_ne_nil_parts jar2) this)]
    rw [splitOnSemiSpace_joinSemiSpace (cookieEntries jar2)
      (by simpa [cookieEntries] using hne2) (cookieEntries_no_semi jar2 hok2)]
    rw [hjar2]
    rw [show cookieEntries (jar ++ [(COOKIE_NAME, encodeURIComponent value)]) =
        cookieEntries jar ++ [COOKIE_NAME.data ++ '=' :: (encodeURIComponent value).data]
      from by simp [cookieEntries]]
    have hnone : ∀ p ∈ jar, p.1 ≠ COOKIE_NAME := by
      intro p hp hcon
      exact hany (List.any_eq_true.2 ⟨p, hp, by simp [hcon]⟩)
    have hchars : ∀ p ∈ jar, ∀ x ∈ p.1.data, x ≠ '=' := by
      intro p hp x hx
      simp only [jarOk, List.all_eq_true] at h
      have h2 := h p hp
      simp only [Bool.and_eq_true, List.all_eq_true, bne_iff_ne, ne_eq] at h2
      exact (h2.1 x hx).2
    rw [getCookieLoop_skip COOKIE_NAME jar (fun p hp => ⟨hnone p hp, hchars p hp⟩) _]
    exact getCookieLoop_hit value _

theorem coerceLoadedRecord_todoJson (t : Todo) :
    coerceLoadedRecord (todoToJson t) = .ok (todoToJson t) := rfl

theorem coerceLoadedRecords_todos (ts : List Todo) :
    coerceLoadedRecords (ts.map todoToJson) = .ok (ts.map todoToJson) := by
  induction ts with
  | nil => rfl
  | cons t tail ih =>
    rw [List.map_cons, coerceLoadedRecords, coerceLoadedRecord_todoJson, ih]

/-- Claim C2: persisting a task list and loading it back round-trips — for any
task list and any well-formed browser cookie jar, `load()` after `save()`
returns exactly the saved records (cookie percent-encoding and JSON
serialization included). -/
theorem save_load_roundtrip (todos : List Todo) (jar : CookieJar)
    (h : jarOk jar = true) :
    loadTodosFromCookie (saveTodosToCookie todos jar) = todos.map todoToJson := by
  unfold loadTodosFromCookie saveTodosToCookie
  rw [getCookie_setCookie _ COOKIE_MAX_AGE_DAYS jar h]
  have hne : (⟨stringifyJson (.arr (todos.map todoToJson))⟩ : String) ≠ "" := by
    intro hcon
    have h2 := congrArg String.data hcon
    rw [show (⟨stringifyJson (.arr (todos.map todoToJson))⟩ : String).data =
        '[' :: (stringifyElems (todos.map todoToJson) ++ [']']) from rfl] at h2
    cases h2
  simp only [if_neg hne, jsonParse_stringifyTodos, coerceLoadedRecords_todos]

/-- Witness for C2: `add("Buy milk")` on the empty list, saved into an empty
cookie jar and reloaded, yields exactly one task with title `"Buy milk"` and
`completed == false`. -/
theorem save_load_roundtrip_witness :
    jarOk [] = true ∧
    loadTodosFromCookie
        (saveTodosToCookie (addTodo "uuid-1" "2024-01-01T00:00:00.000Z" "Buy milk" []) []) =
      (addTodo "uuid-1" "2024-01-01T00:00:00.000Z" "Buy milk" []).map todoToJson ∧
    (addTodo "uuid-1" "2024-01-01T00:00:00.000Z" "Buy milk" []).map todoToJson =
      [Json.obj [("id", Json.str "uuid-1"), ("title", Json.str "Buy milk"),
                 ("completed", Json.bool false),
                 ("createdAt", Json.str "2024-01-01T00:00:00.000Z")]] :=
  ⟨rfl,
   save_load_roundtrip (addTodo "uuid-1" "2024-01-01T00:00:00.000Z" "Buy milk" []) [] rfl,
   rfl⟩
